import Mathlib

/- Verification development for the JSON core of `src/library/forms/jsonview.cpp`
   (namespace JsonParser of the MySQL Workbench fork): the value model
   (JsonValue / JsonObject / JsonArray), the tokenizer (JsonReader::scan and its
   character-level helpers), the token-stream parser (JsonReader::parse*) and
   the serializer (JsonWriter).  Text is modelled as `List Char`, C++ `double`
   payloads as `ℚ` (decimal-text conversions are modelled exactly, without
   binary-float rounding), and thrown exceptions as an error result. -/

set_option linter.unusedVariables false

/-- Result of a C++ computation that may throw: `err` carries the message of the
thrown exception, `ok` the normal result. -/
inductive JRes (α : Type) where
  | ok : α → JRes α
  | err : String → JRes α
deriving DecidableEq

/-- True exactly on results that did not throw. -/
def JRes.isOkB : JRes α → Bool
  | .ok _ => true
  | .err _ => false

/-- The thrown message, if any. -/
def resErr : JRes α → Option String
  | .ok _ => none
  | .err e => some e

/-- The tag enumeration `JsonParser::DataType` used by `JsonValue::getType`. -/
inductive DataType where
  | VInt
  | VBoolean
  | VString
  | VDouble
  | VInt64
  | VUint64
  | VObject
  | VArray
  | VEmpty
deriving DecidableEq

/-- The token kinds `JsonToken::JsonTokenType` produced by `JsonReader::scan`. -/
inductive JsonTokenType where
  | ObjectStart
  | ObjectEnd
  | ArrayStart
  | ArrayEnd
  | Next
  | Assign
  | TString
  | TNumber
  | TBoolean
  | TEmpty
deriving DecidableEq

/-- One scanned token: its type and its raw text (`JsonToken`). -/
structure JsonToken where
  ttype : JsonTokenType
  tvalue : List Char
deriving DecidableEq

/-- Shorthand constructor for tokens. -/
def mkTok (t : JsonTokenType) (v : List Char) : JsonToken := ⟨t, v⟩

/-- The value model `JsonValue`: as in the source, a flat record holding every
payload field at once (`_double`, `_integer64`, `_uint64`, `_bool`, `_string`,
`_object`, `_array`) together with the active tag `_type`.  `_object` mirrors
`std::map<std::string, JsonValue>` as a key-sorted association list, `_array`
mirrors `std::vector<JsonValue>` as a list.  `_uint64` is kept as `Nat`. -/
inductive JsonValue : Type where
  | mk : ℚ → Int → Nat → Bool → List Char → List (List Char × JsonValue) →
      List JsonValue → DataType → JsonValue

/-- Field `_double`. -/
def JsonValue.fDouble : JsonValue → ℚ
  | .mk d _ _ _ _ _ _ _ => d

/-- Field `_integer64`. -/
def JsonValue.fInt64 : JsonValue → Int
  | .mk _ i _ _ _ _ _ _ => i

/-- Field `_uint64`. -/
def JsonValue.fUint64 : JsonValue → Nat
  | .mk _ _ u _ _ _ _ _ => u

/-- Field `_bool`. -/
def JsonValue.fBool : JsonValue → Bool
  | .mk _ _ _ b _ _ _ _ => b

/-- Field `_string`. -/
def JsonValue.fString : JsonValue → List Char
  | .mk _ _ _ _ s _ _ _ => s

/-- Field `_object`. -/
def JsonValue.fObject : JsonValue → List (List Char × JsonValue)
  | .mk _ _ _ _ _ o _ _ => o

/-- Field `_array`. -/
def JsonValue.fArray : JsonValue → List JsonValue
  | .mk _ _ _ _ _ _ a _ => a

/-- Field `_type`. -/
def JsonValue.fType : JsonValue → DataType
  | .mk _ _ _ _ _ _ _ t => t

/-- `JsonValue::getType`. -/
def JsonValue.getType (v : JsonValue) : DataType := v.fType

/-- Truncation toward zero, the effect of C++ `static_cast<int>` on an
in-range `double` (`JsonValue::getInt` applies it to `_double`). -/
def truncQ (q : ℚ) : Int := q.num.tdiv (q.den : Int)

/-- `JsonValue::getDouble`: returns `_double` with no tag check. -/
def JsonValue.getDouble (v : JsonValue) : ℚ := v.fDouble

/-- `JsonValue::getInt`: returns `static_cast<int>(_double)`, no tag check. -/
def JsonValue.getInt (v : JsonValue) : Int := truncQ v.fDouble

/-- `JsonValue::getInt64`: returns `_integer64`, no tag check. -/
def JsonValue.getInt64 (v : JsonValue) : Int := v.fInt64

/-- `JsonValue::getUint64`: returns `_uint64`, no tag check. -/
def JsonValue.getUint64 (v : JsonValue) : Nat := v.fUint64

/-- `JsonValue::getBool`: returns `_bool`, no tag check. -/
def JsonValue.getBool (v : JsonValue) : Bool := v.fBool

/-- `JsonValue::getString`: returns `_string`, no tag check. -/
def JsonValue.getString (v : JsonValue) : List Char := v.fString

/-- `JsonValue::getObject`: returns `_object`, no tag check. -/
def JsonValue.getObject (v : JsonValue) : List (List Char × JsonValue) := v.fObject

/-- `JsonValue::getArray`: returns `_array`, no tag check. -/
def JsonValue.getArray (v : JsonValue) : List JsonValue := v.fArray

/-- `JsonValue::setNumber`. -/
def JsonValue.setNumber : JsonValue → ℚ → JsonValue
  | .mk _ i u b s o a t, x => .mk x i u b s o a t

/-- `JsonValue::setInt64`. -/
def JsonValue.setInt64 : JsonValue → Int → JsonValue
  | .mk d _ u b s o a t, x => .mk d x u b s o a t

/-- `JsonValue::setUint64`. -/
def JsonValue.setUint64 : JsonValue → Nat → JsonValue
  | .mk d i _ b s o a t, x => .mk d i x b s o a t

/-- `JsonValue::setBool`. -/
def JsonValue.setBool : JsonValue → Bool → JsonValue
  | .mk d i u _ s o a t, x => .mk d i u x s o a t

/-- `JsonValue::setString`. -/
def JsonValue.setString : JsonValue → List Char → JsonValue
  | .mk d i u b _ o a t, x => .mk d i u b x o a t

/-- `JsonValue::setObject`. -/
def JsonValue.setObject : JsonValue → List (List Char × JsonValue) → JsonValue
  | .mk d i u b s _ a t, x => .mk d i u b s x a t

/-- `JsonValue::setArray`. -/
def JsonValue.setArray : JsonValue → List JsonValue → JsonValue
  | .mk d i u b s o _ t, x => .mk d i u b s o x t

/-- `JsonValue::setType`. -/
def JsonValue.setType : JsonValue → DataType → JsonValue
  | .mk d i u b s o a _, x => .mk d i u b s o a x

/-- The default constructor `JsonValue()`: zeroed payloads, tag `VEmpty`. -/
def jsonValueDefault : JsonValue := .mk 0 0 0 false [] [] [] .VEmpty

/-- Constructor `JsonValue(const std::string &val)` (the uninitialized
`_integer64` / `_uint64` of the source are modelled as 0). -/
def jsonValueOfString (val : List Char) : JsonValue := .mk 0 0 0 false val [] [] .VString

/-- Constructor `JsonValue(bool val)`. -/
def jsonValueOfBool (val : Bool) : JsonValue := .mk 0 0 0 val [] [] [] .VBoolean

/-- Constructor `JsonValue(int val)`.  The source initializer list is
`_double(0), _integer64(0), _uint64(0), _bool(false), _type(VInt)`: the
argument `val` is never stored in any field. -/
def jsonValueOfInt (val : Int) : JsonValue := .mk 0 0 0 false [] [] [] .VInt

/-- Constructor `JsonValue(int64_t val)`: stores `val` in `_integer64`. -/
def jsonValueOfInt64 (val : Int) : JsonValue := .mk 0 val 0 false [] [] [] .VInt64

/-- Constructor `JsonValue(uint64_t val)`: stores `val` in `_uint64`. -/
def jsonValueOfUint64 (val : Nat) : JsonValue := .mk 0 0 val false [] [] [] .VUint64

/-- Constructor `JsonValue(double val)`: stores `val` in `_double`. -/
def jsonValueOfDouble (val : ℚ) : JsonValue := .mk val 0 0 false [] [] [] .VDouble

/-- Constructor `JsonValue(const JsonObject &val)`: stores `val` in `_object`. -/
def jsonValueOfObject (val : List (List Char × JsonValue)) : JsonValue :=
  .mk 0 0 0 false [] val [] .VObject

/-- Constructor `JsonValue(const JsonArray &val)`: stores `val` in `_array`. -/
def jsonValueOfArray (val : List JsonValue) : JsonValue := .mk 0 0 0 false [] [] val .VArray

/-- Conversion `operator int`: throws `std::bad_cast` unless the tag is `VInt`,
then returns `getInt()`. -/
def JsonValue.asInt (v : JsonValue) : JRes Int :=
  if v.getType ≠ .VInt then .err ("bad_cast") else .ok v.getInt

/-- Conversion `operator double`. -/
def JsonValue.asDouble (v : JsonValue) : JRes ℚ :=
  if v.getType ≠ .VDouble then .err ("bad_cast") else .ok v.getDouble

/-- Conversion `operator int64_t`. -/
def JsonValue.asInt64 (v : JsonValue) : JRes Int :=
  if v.getType ≠ .VInt64 then .err ("bad_cast") else .ok v.getInt64

/-- Conversion `operator uint64_t`. -/
def JsonValue.asUint64 (v : JsonValue) : JRes Nat :=
  if v.getType ≠ .VUint64 then .err ("bad_cast") else .ok v.getUint64

/-- Conversion `operator bool`. -/
def JsonValue.asBool (v : JsonValue) : JRes Bool :=
  if v.getType ≠ .VBoolean then .err ("bad_cast") else .ok v.getBool

/-- Conversion `operator const std::string &`. -/
def JsonValue.asString (v : JsonValue) : JRes (List Char) :=
  if v.getType ≠ .VString then .err ("bad_cast") else .ok v.getString

/-- Conversion `operator const JsonObject &`. -/
def JsonValue.asObject (v : JsonValue) : JRes (List (List Char × JsonValue)) :=
  if v.getType ≠ .VObject then .err ("bad_cast") else .ok v.getObject

/-- Conversion `operator const JsonArray &`. -/
def JsonValue.asArray (v : JsonValue) : JRes (List JsonValue) :=
  if v.getType ≠ .VArray then .err ("bad_cast") else .ok v.getArray

/-- Lexicographic `operator<` of `std::string` (byte order restricted to the
ASCII range used here), the key order of the `std::map` backing `JsonObject`. -/
def ltChars : List Char → List Char → Bool
  | [], [] => false
  | [], _ :: _ => true
  | _ :: _, [] => false
  | a :: as, b :: bs => if a < b then true else if b < a then false else ltChars as bs

/-- `JsonObject::find` on the sorted association list (by key equality, as
`std::map::find` observes it). -/
def objFind (key : List Char) : List (List Char × JsonValue) → Option JsonValue
  | [] => none
  | (k, v) :: rest => if k = key then some v else objFind key rest

/-- `JsonObject::insert`, i.e. `_data[key] = value` on the `std::map`:
insert-or-overwrite keeping the list sorted by `ltChars`. -/
def objInsert (key : List Char) (val : JsonValue) :
    List (List Char × JsonValue) → List (List Char × JsonValue)
  | [] => [(key, val)]
  | (k, v) :: rest =>
    if ltChars key k then (key, val) :: (k, v) :: rest
    else if key = k then (key, val) :: rest
    else (k, v) :: objInsert key val rest

/-- Bounds-checked `std::vector::at`: throws `std::out_of_range` for every
index at or past the size. -/
def vectorAt (l : List JsonValue) (pos : Nat) : JRes JsonValue :=
  if h : pos < l.length then .ok l[pos] else .err ("vector out_of_range")

/-- `JsonArray::at(pos)`: first the explicit guard `pos > _data.size()`
(throwing `std::out_of_range` with the `Index ... is out of range.` message),
then the access `_data.at(pos)`. -/
def jsonArrayAt (l : List JsonValue) (pos : Nat) : JRes JsonValue :=
  if l.length < pos then .err ("Index is out of range.") else vectorAt l pos

/-- `JsonReader::isWhiteSpace`: space, tab, line feed, carriage return. -/
def isWhiteSpace (c : Char) : Bool := c = ' ' || c = '\t' || c = '\n' || c = '\r'

/-- C `isspace` (used by `checkJsonEmpty`): adds vertical tab and form feed. -/
def isSpaceC (c : Char) : Bool :=
  c = ' ' || c = '\t' || c = '\n' || c = '\x0b' || c = '\x0c' || c = '\r'

/-- ASCII decimal digit test. -/
def isDigitC (c : Char) : Bool := '0' ≤ c && c ≤ '9'

/-- Membership in the character set `{0-9, ., e, E, -, +}` that
`JsonReader::getJsonNumber` accepts. -/
def isNumericChar (c : Char) : Bool :=
  isDigitC c || c = '.' || c = 'e' || c = 'E' || c = '-' || c = '+'

/-- The escape switch inside `JsonReader::getJsonString`: the eight recognized
escape characters and the character each one denotes. -/
def escDecode (c : Char) : Option Char :=
  if c = '/' then some '/'
  else if c = '"' then some '"'
  else if c = '\\' then some '\\'
  else if c = 'b' then some '\x08'
  else if c = 'f' then some '\x0c'
  else if c = 'n' then some '\n'
  else if c = 'r' then some '\r'
  else if c = 't' then some '\t'
  else none

mutual

/-- Loop of `JsonReader::getJsonString`, entered after the opening quote was
consumed; `acc` holds the decoded characters in reverse.  Ends successfully
only on an unescaped closing quote; an unrecognized escape throws, and running
out of input makes the final `match("\"")` fail with `Expected: " `. -/
def getJsonStringAux : List Char → List Char → JRes (List Char × List Char)
  | [], _acc => .err ("Expected: \" ")
  | c :: rest, acc =>
    if c = '"' then .ok (acc.reverse, rest)
    else if c = '\\' then getJsonStringEsc rest acc
    else getJsonStringAux rest (c :: acc)

/-- The escaped-character step of the loop: a backslash at the very end of the
input leaves the loop at end of input, so the final `match("\"")` fails. -/
def getJsonStringEsc : List Char → List Char → JRes (List Char × List Char)
  | [], _acc => .err ("Expected: \" ")
  | e :: rest2, acc =>
    match escDecode e with
    | some ch => getJsonStringAux rest2 (ch :: acc)
    | none => .err ("Unrecognized escape sequence: \\" ++ String.mk [e])

end

/-- `JsonReader::getJsonString` on the text following the opening quote:
returns the decoded string content and the remaining text. -/
def getJsonString (cs : List Char) : JRes (List Char × List Char) :=
  getJsonStringAux cs []

/-- `JsonReader::getJsonNumber`: the maximal prefix of numeric characters,
paired with the remaining text. -/
def getJsonNumber (cs : List Char) : List Char × List Char :=
  (cs.takeWhile isNumericChar, cs.dropWhile isNumericChar)

/-- `JsonReader::getJsonBoolean`: reads 5 characters when the first is `f`,
otherwise 4 (fewer at end of input).  The source then tests
`boolString == "true" && boolString == "false"`, a condition that can never
hold, so the error branch is dead and any captured text is returned. -/
def getJsonBoolean (cs : List Char) : JRes (List Char × List Char) :=
  let size : Nat := if cs.head? = some 'f' then 5 else 4
  let boolString := cs.take size
  if boolString = "true".toList ∧ boolString = "false".toList then
    .err ("Unexpected token: " ++ String.mk boolString)
  else .ok (boolString, cs.drop size)

/-- Character gathering of `JsonReader::checkJsonEmpty`: up to `n` characters,
stopping early at end of input or at a C whitespace character. -/
def takeNoSpace : Nat → List Char → List Char × List Char
  | 0, cs => ([], cs)
  | _ + 1, [] => ([], [])
  | n + 1, c :: cs =>
    if isSpaceC c then ([], c :: cs)
    else
      let p := takeNoSpace n cs
      (c :: p.1, p.2)

/-- `JsonReader::checkJsonEmpty(text)`: gathers up to `text.size()` characters
and throws `Unexpected token: ...` unless they equal `text` exactly. -/
def checkJsonEmpty (text : List Char) (cs : List Char) : JRes (List Char) :=
  let p := takeNoSpace text.length cs
  if p.1 = text then .ok p.2 else .err ("Unexpected token: " ++ String.mk p.1)

/-- Prepends a token to a successful scan result. -/
def jcons (t : JsonToken) : JRes (List JsonToken) → JRes (List JsonToken)
  | .ok ts => .ok (t :: ts)
  | .err e => .err e

/-- The loop of `JsonReader::scan`, with step fuel (each loop iteration of the
source consumes at least one character, so `length + 1` steps always
suffice).  While not at end of input: skip whitespace; if that reaches the end,
push one `JsonTokenEmpty` token with empty text (the `case 0` fallthrough of
the source) and stop; otherwise dispatch on the next character and push the
scanned token. -/
def scanF : Nat → List Char → JRes (List JsonToken)
  | 0, _ => .err ("scanner fuel exhausted")
  | _ + 1, [] => .ok []
  | fuel + 1, cs@(_ :: _) =>
    match cs.dropWhile isWhiteSpace with
    | [] => .ok [mkTok .TEmpty []]
    | c :: rest =>
      if c = '\x7b' then jcons (mkTok .ObjectStart [c]) (scanF fuel rest)
      else if c = '\x7d' then jcons (mkTok .ObjectEnd [c]) (scanF fuel rest)
      else if c = '[' then jcons (mkTok .ArrayStart [c]) (scanF fuel rest)
      else if c = ']' then jcons (mkTok .ArrayEnd [c]) (scanF fuel rest)
      else if c = ',' then jcons (mkTok .Next [c]) (scanF fuel rest)
      else if c = ':' then jcons (mkTok .Assign [c]) (scanF fuel rest)
      else if c = '"' then
        match getJsonString rest with
        | .ok (s, rest2) => jcons (mkTok .TString s) (scanF fuel rest2)
        | .err e => .err e
      else if c = '-' || isDigitC c then
        let p := getJsonNumber (c :: rest)
        jcons (mkTok .TNumber p.1) (scanF fuel p.2)
      else if c = 't' || c = 'f' then
        match getJsonBoolean (c :: rest) with
        | .ok (s, rest2) => jcons (mkTok .TBoolean s) (scanF fuel rest2)
        | .err e => .err e
      else if c = 'n' then
        match checkJsonEmpty ("null".toList) (c :: rest) with
        | .ok rest2 => jcons (mkTok .TEmpty []) (scanF fuel rest2)
        | .err e => .err e
      else if c = 'u' then
        match checkJsonEmpty ("undefined".toList) (c :: rest) with
        | .ok rest2 => jcons (mkTok .TEmpty []) (scanF fuel rest2)
        | .err e => .err e
      else .err ("Unexpected start sequence: " ++ String.mk [c])

/-- `JsonReader::scan` on the whole input. -/
def scan (cs : List Char) : JRes (List JsonToken) := scanF (cs.length + 1) cs

/-- `JsonReader::parseNumber`: the token text is read into a `double` by a
`std::stringstream` and the value is tagged `VInt` when `modf` reports a zero
fractional part, `VDouble` otherwise.  Helper `parseDec` below models the
stream extraction. -/
def readDigits : List Char → Nat → Nat × Nat × List Char
  | [], acc => (acc, 0, [])
  | c :: cs, acc =>
    if isDigitC c then
      let p := readDigits cs (acc * 10 + (c.toNat - 48))
      (p.1, p.2.1 + 1, p.2.2)
    else (acc, 0, c :: cs)

/-- Leading-sign step of the stream number extraction. -/
def parseDecSign (cs : List Char) : Int × List Char :=
  match cs with
  | [] => (1, [])
  | c :: t => if c = '-' then (-1, t) else if c = '+' then (1, t) else (1, c :: t)

/-- Fractional-part step: a dot followed by digits, otherwise nothing. -/
def parseDecFrac (r1 : List Char) : Nat × Nat × List Char :=
  match r1 with
  | [] => (0, 0, [])
  | c :: t => if c = '.' then readDigits t 0 else (0, 0, c :: t)

/-- Exponent step applied to the mantissa value: scales by a power of ten, or
fails to 0 when the exponent marker has no digits. -/
def parseDecExp (mant : Int) (fpn : Nat) (r2 : List Char) : ℚ :=
  match r2 with
  | [] => mkRat mant (10 ^ fpn)
  | c2 :: t =>
    if c2 = 'e' ∨ c2 = 'E' then
      let esp := parseDecSign t
      let epp := readDigits esp.2 0
      if epp.2.1 = 0 then 0
      else if esp.1 ≥ 0 then mkRat (mant * 10 ^ epp.1) (10 ^ fpn)
      else mkRat mant (10 ^ fpn * 10 ^ epp.1)
    else mkRat mant (10 ^ fpn)

/-- `std::stringstream >> double` on a token text, modelled exactly over `ℚ`:
optional sign, integer digits, optional fraction, optional exponent; if no
digits are present (or the exponent is malformed) the extraction fails and the
variable keeps its initial value 0. -/
def parseDec (cs : List Char) : ℚ :=
  let sp := parseDecSign cs
  let ipp := readDigits sp.2 0
  let fpp := parseDecFrac ipp.2.2
  if ipp.2.1 = 0 ∧ fpp.2.1 = 0 then 0
  else parseDecExp (sp.1 * ((ipp.1 : Int) * 10 ^ fpp.2.1 + (fpp.1 : Int))) fpp.2.1 fpp.2.2

/-- `JsonReader::parseNumber` applied to a fresh default `JsonValue`. -/
def parseNumberVal (text : List Char) : JsonValue :=
  let number := parseDec text
  let v1 :=
    if number.den = 1 then jsonValueDefault.setType .VInt
    else jsonValueDefault.setType .VDouble
  v1.setNumber number

/-- `processToken(JsonTokenObjectEnd, skip := true)` after the member loop of
`JsonReader::parse(JsonObject&)`. -/
def objFinish (ts : List JsonToken) (obj : List (List Char × JsonValue)) :
    JRes (List (List Char × JsonValue) × List JsonToken) :=
  match ts with
  | [] => .err ("Not compleated json data")
  | t :: ts1 =>
    if t.ttype = .ObjectEnd then .ok (obj, ts1)
    else .err ("Unexpected token: " ++ String.mk t.tvalue)

/-- `processToken(JsonTokenArrayEnd, skip := true)` after the element loop of
`JsonReader::parseArray`. -/
def arrFinish (ts : List JsonToken) (arr : List JsonValue) :
    JRes (List JsonValue × List JsonToken) :=
  match ts with
  | [] => .err ("Not compleated json data")
  | t :: ts1 =>
    if t.ttype = .ArrayEnd then .ok (arr, ts1)
    else .err ("Unexpected token: " ++ String.mk t.tvalue)

mutual

/-- `JsonReader::parse(JsonValue&)`: dispatch on the current token type; an
exhausted cursor throws `Unexpected json data end.`.  Fuel only bounds the
recursion depth of the model; `readJson` supplies enough for any input. -/
def parseValueF : Nat → List JsonToken → JRes (JsonValue × List JsonToken)
  | 0, _ => .err ("parser fuel exhausted")
  | _ + 1, [] => .err ("Unexpected json data end.")
  | fuel + 1, t :: ts =>
    match t.ttype with
    | .TString => .ok ((jsonValueDefault.setString t.tvalue).setType .VString, ts)
    | .TNumber => .ok (parseNumberVal t.tvalue, ts)
    | .TBoolean =>
      .ok ((jsonValueDefault.setBool (t.tvalue = "true".toList)).setType .VBoolean, ts)
    | .TEmpty => .ok (jsonValueDefault.setType .VEmpty, ts)
    | .ObjectStart =>
      match parseJsonObjectF fuel (t :: ts) with
      | .ok (obj, rest) => .ok ((jsonValueDefault.setObject obj).setType .VObject, rest)
      | .err e => .err e
    | .ArrayStart =>
      match parseJsonArrayF fuel (t :: ts) with
      | .ok (arr, rest) => .ok ((jsonValueDefault.setArray arr).setType .VArray, rest)
      | .err e => .err e
    | _ => .err ("Unexpected token: " ++ String.mk t.tvalue)

/-- `JsonReader::parse(JsonObject&)`: consume `ObjectStart`, then compute
`go := processToken(ObjectStart, true) && _tokenIterator->getType() !=
JsonTokenObjectStart` exactly as the source writes it (the comparison is
against ObjectStart, not ObjectEnd), run the member loop while `go`, and
finally require `ObjectEnd`. -/
def parseJsonObjectF : Nat → List JsonToken →
    JRes (List (List Char × JsonValue) × List JsonToken)
  | 0, _ => .err ("parser fuel exhausted")
  | fuel + 1, ts =>
    match ts with
    | [] => .err ("Not compleated json data")
    | t :: ts1 =>
      if t.ttype ≠ .ObjectStart then .err ("Unexpected token: " ++ String.mk t.tvalue)
      else
        match ts1 with
        | [] => objFinish [] []
        | t1 :: _ =>
          if t1.ttype ≠ .ObjectStart then parseObjectLoopF fuel ts1 []
          else objFinish ts1 []

/-- One pass of the member loop of `JsonReader::parse(JsonObject&)`: key
string, `:`, recursive value, duplicate check before insertion, then loop again
exactly when `processToken(JsonTokenNext, true, false)` returns true (a comma
was present and the iterator is not at the end after skipping it). -/
def parseObjectLoopF : Nat → List JsonToken → List (List Char × JsonValue) →
    JRes (List (List Char × JsonValue) × List JsonToken)
  | 0, _, _ => .err ("parser fuel exhausted")
  | fuel + 1, ts, obj =>
    match ts with
    | [] => .err ("Not compleated json data")
    | t :: ts1 =>
      if t.ttype ≠ .TString then .err ("Unexpected token: " ++ String.mk t.tvalue)
      else
        match ts1 with
        | [] => .err ("Not compleated json data")
        | a :: ts2 =>
          if a.ttype ≠ .Assign then .err ("Unexpected token: " ++ String.mk a.tvalue)
          else
            match parseValueF fuel ts2 with
            | .err e => .err e
            | .ok (v, ts3) =>
              if (objFind t.tvalue obj).isSome then
                .err ("Duplicate member: " ++ String.mk t.tvalue)
              else
                let obj2 := objInsert t.tvalue v obj
                match ts3 with
                | [] => objFinish [] obj2
                | n :: ts4 =>
                  if n.ttype = .Next then
                    match ts4 with
                    | [] => objFinish [] obj2
                    | _ :: _ => parseObjectLoopF fuel ts4 obj2
                  else objFinish ts3 obj2

/-- Token handling of `JsonReader::parseArray`: consume `ArrayStart`, compute
`go := processToken(ArrayStart, true) && _tokenIterator->getType() !=
JsonTokenArrayStart` as in the source, run the element loop while `go`, then
require `ArrayEnd`. -/
def parseJsonArrayF : Nat → List JsonToken → JRes (List JsonValue × List JsonToken)
  | 0, _ => .err ("parser fuel exhausted")
  | fuel + 1, ts =>
    match ts with
    | [] => .err ("Not compleated json data")
    | t :: ts1 =>
      if t.ttype ≠ .ArrayStart then .err ("Unexpected token: " ++ String.mk t.tvalue)
      else
        match ts1 with
        | [] => arrFinish [] []
        | t1 :: _ =>
          if t1.ttype ≠ .ArrayStart then parseArrayLoopF fuel ts1 []
          else arrFinish ts1 []

/-- One pass of the element loop of `JsonReader::parseArray`: recursive value,
`push_back`, loop again exactly when a comma is present and tokens remain. -/
def parseArrayLoopF : Nat → List JsonToken → List JsonValue →
    JRes (List JsonValue × List JsonToken)
  | 0, _, _ => .err ("parser fuel exhausted")
  | fuel + 1, ts, arr =>
    match parseValueF fuel ts with
    | .err e => .err e
    | .ok (v, ts1) =>
      let arr2 := arr ++ [v]
      match ts1 with
      | [] => arrFinish [] arr2
      | n :: ts2 =>
        if n.ttype = .Next then
          match ts2 with
          | [] => arrFinish [] arr2
          | _ :: _ => parseArrayLoopF fuel ts2 arr2
        else arrFinish ts1 arr2

end

/-- `JsonReader::read(text, value)`: construct a reader, `scan`, then
`parse(value)` on the token stream (leftover tokens are ignored). -/
def readJson (cs : List Char) : JRes JsonValue :=
  match scan cs with
  | .err e => .err e
  | .ok ts =>
    match parseValueF (3 * ts.length + 3) ts with
    | .ok p => .ok p.1
    | .err e => .err e

/-- ASCII digit character for a value below 10. -/
def digitChar (n : Nat) : Char := Char.ofNat (48 + n)

/-- Decimal digits of a natural number, most significant first; structural
fuel (`n + 1` steps always suffice, see `natTextF_fuel`). -/
def natTextF : Nat → Nat → List Char
  | 0, _ => []
  | fuel + 1, n => if n < 10 then [digitChar n] else natTextF fuel (n / 10) ++ [digitChar (n % 10)]

/-- Modelled from the spec: the `natural decimal text representation` that
`base::to_string` (base library, not under src/) produces for unsigned
integers. -/
def natText (n : Nat) : List Char := natTextF (n + 1) n

/-- Modelled from the spec: `base::to_string` on signed integers. -/
def intText (i : Int) : List Char :=
  if i < 0 then '-' :: natText i.natAbs else natText i.natAbs

/-- The least exponent `k` with `q * 10 ^ k` integral, when one exists within
the search bound `q.den` (it does whenever the denominator has only the prime
factors 2 and 5, in particular for every binary floating-point value). -/
def finDecK (q : ℚ) : Nat :=
  match (List.range (q.den + 1)).find? (fun k => 10 ^ k % q.den == 0) with
  | some k => k
  | none => 0

/-- Insert a decimal point `k` digits from the right, zero-padding so that at
least one digit precedes the point; `k = 0` leaves the digits unchanged. -/
def fracDot (ds : List Char) (k : Nat) : List Char :=
  if k = 0 then ds
  else
    let ds2 := if ds.length ≤ k then List.replicate (k + 1 - ds.length) '0' ++ ds else ds
    ds2.take (ds2.length - k) ++ '.' :: ds2.drop (ds2.length - k)

/-- Modelled from the spec: `base::to_string` on a `double`, the `natural
decimal text representation` — the exact finite decimal of the value (sign,
integer digits, and a fractional part exactly when the value is not
integral). -/
def doubleText (q : ℚ) : List Char :=
  let k := finDecK q
  let body := fracDot (natText (q.num.natAbs * 10 ^ k / q.den)) k
  if q.num < 0 then '-' :: body else body

/-- Indentation: `std::string(_depth, '\t')`. -/
def tabs (n : Nat) : List Char := List.replicate n '\t'

/-- Lower-case hexadecimal digit. -/
def hexDigit (n : Nat) : Char := if n < 10 then digitChar n else Char.ofNat (87 + n)

/-- Modelled from the spec: per-character action of `base::escape_json_string`
(base library, not under src/) — `all JSON-significant characters escaped
(quote, backslash, control characters) per standard JSON string-escaping
rules`; every other character is passed through unchanged. -/
def escEncode (c : Char) : List Char :=
  if c = '"' then ['\\', '"']
  else if c = '\\' then ['\\', '\\']
  else if c = '\x08' then ['\\', 'b']
  else if c = '\x0c' then ['\\', 'f']
  else if c = '\n' then ['\\', 'n']
  else if c = '\r' then ['\\', 'r']
  else if c = '\t' then ['\\', 't']
  else if c.toNat < 32 then ['\\', 'u', '0', '0', hexDigit (c.toNat / 16), hexDigit (c.toNat % 16)]
  else [c]

/-- Modelled from the spec: `base::escape_json_string` over a whole string. -/
def escapeJsonString : List Char → List Char
  | [] => []
  | c :: cs => escEncode c ++ escapeJsonString cs

/-- `JsonWriter::write(const std::string&)`: quote, escape, quote. -/
def writeQuoted (s : List Char) : List Char := '"' :: escapeJsonString s ++ ['"']

/-- The member/element loop layout shared by `JsonWriter::write(JsonObject)`
and `write(JsonArray)`: every line ends in a newline, and a comma precedes the
newline on every line but the last. -/
def linesWithCommas : List (List Char) → List Char
  | [] => []
  | [p] => p ++ ['\n']
  | p :: ps => p ++ [',', '\n'] ++ linesWithCommas ps

/-- `JsonWriter::write(const JsonValue&)` with the current `_depth`.
Containers append the opening bracket, a newline when nonempty, one indented
line per child at depth `_depth + 1` (comma-separated except after the last),
then the closing bracket indented at the outer depth. -/
def writeV (depth : Nat) : JsonValue → List Char
  | .mk d i u b s o a t =>
    match t with
    | .VInt => intText (truncQ d)
    | .VBoolean => if b then "true".toList else "false".toList
    | .VString => writeQuoted s
    | .VDouble => doubleText d
    | .VInt64 => intText i
    | .VUint64 => natText u
    | .VObject =>
      let body := linesWithCommas (o.attach.map (fun ⟨kv, h⟩ =>
        tabs (depth + 1) ++ writeQuoted kv.1 ++ " : ".toList ++ writeV (depth + 1) kv.2))
      '\x7b' :: ((if o.isEmpty then [] else ['\n']) ++ body ++ tabs depth ++ ['\x7d'])
    | .VArray =>
      let body := linesWithCommas (a.attach.map (fun ⟨e, h⟩ =>
        tabs (depth + 1) ++ writeV (depth + 1) e))
      '[' :: ((if a.isEmpty then [] else ['\n']) ++ body ++ tabs depth ++ [']'])
    | .VEmpty => "null".toList
termination_by v => sizeOf v
decreasing_by
  · have h1 := List.sizeOf_lt_of_mem h
    cases kv with
    | mk k v1 => simp at h1 ⊢ ; omega
  · have h1 := List.sizeOf_lt_of_mem h
    simp at h1 ⊢ ; omega

/-- `JsonWriter::write(std::string&, const JsonValue&)`: serialize a value
starting at depth 0. -/
def writeText (v : JsonValue) : List Char := writeV 0 v

/-- Join child token runs with the `,` token between consecutive runs. -/
def joinToks : List (List JsonToken) → List JsonToken
  | [] => []
  | [p] => p
  | p :: ps => p ++ mkTok .Next [','] :: joinToks ps

/-- The token stream that scanning a serialized value yields (specification
device for the round-trip proof). -/
def tokensOfV : JsonValue → List JsonToken
  | .mk d i u b s o a t =>
    match t with
    | .VInt => [mkTok .TNumber (intText (truncQ d))]
    | .VDouble => [mkTok .TNumber (doubleText d)]
    | .VInt64 => [mkTok .TNumber (intText i)]
    | .VUint64 => [mkTok .TNumber (natText u)]
    | .VBoolean => [mkTok .TBoolean (if b then "true".toList else "false".toList)]
    | .VString => [mkTok .TString s]
    | .VEmpty => [mkTok .TEmpty []]
    | .VObject =>
      mkTok .ObjectStart ['\x7b'] ::
        joinToks (o.attach.map (fun ⟨kv, h⟩ =>
          mkTok .TString kv.1 :: mkTok .Assign [':'] :: tokensOfV kv.2)) ++
        [mkTok .ObjectEnd ['\x7d']]
    | .VArray =>
      mkTok .ArrayStart ['['] ::
        joinToks (a.attach.map (fun ⟨e, h⟩ => tokensOfV e)) ++ [mkTok .ArrayEnd [']']]
termination_by v => sizeOf v
decreasing_by
  · have h1 := List.sizeOf_lt_of_mem h
    cases kv with
    | mk k v1 => simp at h1 ⊢ ; omega
  · have h1 := List.sizeOf_lt_of_mem h
    simp at h1 ⊢ ; omega

/-- A string with no special characters: no quote, no backslash, no control
character (so both escaping and scanning pass it through unchanged). -/
def cleanChar (c : Char) : Bool := c ≠ '"' && c ≠ '\\' && 32 ≤ c.toNat

/-- Cleanliness of a whole string. -/
def cleanStr (s : List Char) : Bool := s.all cleanChar

/-- Strictly ascending keys, the invariant of the `std::map` behind
`JsonObject`. -/
def sortedKeys : List (List Char × JsonValue) → Bool
  | [] => true
  | [_] => true
  | (k1, v1) :: (k2, v2) :: t => ltChars k1 k2 && sortedKeys ((k2, v2) :: t)

/-- The denominator divides a power of ten within the search bound: exactly
the rationals with a finite decimal representation (every binary double
qualifies). -/
def hasFinDec (q : ℚ) : Bool := 10 ^ finDecK q % q.den == 0

/-- Trees of the amended round-trip claim: built from Int / Double / String /
Boolean / Object / Array / Empty leaves only, non-payload fields at their
default-constructed values, strings (including keys) clean, `Int` payloads
integral and within `int` range, `Double` payloads non-integral with a finite
decimal representation, every object and array nonempty with strictly sorted
keys, and no array whose first element is again an array. -/
inductive WfRT : JsonValue → Prop where
  | wint : ∀ d : ℚ, d.den = 1 → d.num.natAbs < 2 ^ 31 →
      WfRT (.mk d 0 0 false [] [] [] .VInt)
  | wdouble : ∀ d : ℚ, d.den ≠ 1 → hasFinDec d = true →
      WfRT (.mk d 0 0 false [] [] [] .VDouble)
  | wbool : ∀ b : Bool, WfRT (.mk 0 0 0 b [] [] [] .VBoolean)
  | wstring : ∀ s : List Char, cleanStr s = true →
      WfRT (.mk 0 0 0 false s [] [] .VString)
  | wempty : WfRT (.mk 0 0 0 false [] [] [] .VEmpty)
  | wobject : ∀ o : List (List Char × JsonValue), o ≠ [] → sortedKeys o = true →
      (∀ kv ∈ o, cleanStr kv.1 = true) → (∀ kv ∈ o, WfRT kv.2) →
      WfRT (.mk 0 0 0 false [] o [] .VObject)
  | warray : ∀ a : List JsonValue, a ≠ [] →
      (∀ h ∈ a.head?, h.getType ≠ .VArray) → (∀ e ∈ a, WfRT e) →
      WfRT (.mk 0 0 0 false [] [] a .VArray)

/-- View of a read result: the tag. -/
def resTag : JRes JsonValue → Option DataType
  | .ok v => some v.getType
  | .err _ => none

/-- View of a read result: tag with numerator and denominator of `_double`. -/
def resNum : JRes JsonValue → Option (DataType × Int × Nat)
  | .ok v => some (v.getType, v.fDouble.num, v.fDouble.den)
  | .err _ => none

/-- View of a read result: tag with `_bool`. -/
def resBool : JRes JsonValue → Option (DataType × Bool)
  | .ok v => some (v.getType, v.fBool)
  | .err _ => none

/-- View of a read result: tag with `_string`. -/
def resStr : JRes JsonValue → Option (DataType × List Char)
  | .ok v => some (v.getType, v.fString)
  | .err _ => none

instance : Nonempty JsonValue := ⟨jsonValueDefault⟩

/-- The token run of one serialized object member list: for each member a
string token, an assign token and the member value tokens, members separated
by `,` tokens. -/
def memberToks (o : List (List Char × JsonValue)) : List JsonToken :=
  joinToks (o.map (fun kv => mkTok .TString kv.1 :: mkTok .Assign [':'] :: tokensOfV kv.2))

/-- The token run of a serialized array element list. -/
def elemToks (a : List JsonValue) : List JsonToken :=
  joinToks (a.map tokensOfV)

/-- One member line of `JsonWriter::write(JsonObject)` before the trailing
comma/newline. -/
def memberLine (depth : Nat) (kv : List Char × JsonValue) : List Char :=
  tabs (depth + 1) ++ writeQuoted kv.1 ++ " : ".toList ++ writeV (depth + 1) kv.2

/-- Appends a token run in front of a successful scan result. -/
def jappend (ts : List JsonToken) : JRes (List JsonToken) → JRes (List JsonToken)
  | .ok l => .ok (ts ++ l)
  | .err e => .err e

/-- A well-formed sample tree: an object holding a Double member and an array
member whose elements are an Int, a String and a null. -/
def wfSample : JsonValue :=
  JsonValue.mk 0 0 0 false []
    [(['a'], JsonValue.mk (mkRat 7 2) 0 0 false [] [] [] .VDouble),
     (['b'], JsonValue.mk 0 0 0 false [] []
        [JsonValue.mk 3 0 0 false [] [] [] .VInt,
         JsonValue.mk 0 0 0 false ['x'] [] [] .VString,
         JsonValue.mk 0 0 0 false [] [] [] .VEmpty] .VArray)]
    [] .VObject

/-- C1: the claim states that parsing the two-character texts holding an empty
object / empty array succeeds with an empty container (and serializes back
without interior newline).  The code instead rejects both: after consuming the
opening token, `parse(JsonObject&)` and `parseArray` compare the next token
against `ObjectStart` / `ArrayStart` (not `ObjectEnd` / `ArrayEnd`), so the
member loop runs on the closing token and throws `Unexpected token`.  This
theorem evaluates the model at both failing inputs. -/
theorem empty_object_and_array_rejected :
    resErr (readJson ("\x7b\x7d".toList)) = some ("Unexpected token: \x7d") ∧
    resErr (readJson ("[]".toList)) = some ("Unexpected token: ]") :=
  ⟨by decide, by decide⟩

/-- C3: the claim states that scanning `tru` fails.  In the code the validation
`boolString == "true" && boolString == "false"` can never hold, so the scanner
accepts any 4- or 5-character capture: `tru` scans to a Boolean token and
parses to the Boolean value `false`; moreover `getJsonBoolean` never throws on
any input. -/
theorem boolean_tru_scans_and_parses :
    resBool (readJson ("tru".toList)) = some (.VBoolean, false) ∧
    scan ("tru".toList) = .ok [mkTok .TBoolean ['t', 'r', 'u']] ∧
    ∀ cs : List Char, (getJsonBoolean cs).isOkB = true := by
  refine ⟨by decide, by decide, ?_⟩
  intro cs
  have hne : ∀ bs : List Char, ¬(bs = "true".toList ∧ bs = "false".toList) := by
    rintro bs ⟨h1, h2⟩
    rw [h1] at h2
    exact absurd h2 (by decide)
  simp only [getJsonBoolean]
  rw [if_neg (hne _)]
  rfl

/-- C4 counterexample: the claim states that parsing `3.0` yields tag Double.
`parseNumber` tags by the parsed value (`modf` fractional part), not by the
token text, so `3.0` comes back tagged `VInt` (payload 3), not `VDouble`. -/
theorem numeric_tag_3_0_cex :
    resNum (readJson ("3.0".toList)) = some (.VInt, 3, 1) ∧ (DataType.VInt ≠ .VDouble) :=
  ⟨by decide, by decide⟩

/-- C4 amended: parsing `3` yields tag Int with value 3; parsing `3.0` yields
tag Int (not Double) with numeric payload 3, because the fractional part of
the parsed value is zero; parsing `3.5` yields tag Double with payload 3.5. -/
theorem numeric_tagging_amended :
    resNum (readJson ("3".toList)) = some (.VInt, 3, 1) ∧
    resNum (readJson ("3.0".toList)) = some (.VInt, 3, 1) ∧
    resNum (readJson ("3.5".toList)) = some (.VDouble, 7, 2) :=
  ⟨by decide, by decide, by decide⟩

/-- C6: the claim states that every typed constructor stores its argument so
that the matching getter returns it.  The constructor from `int` contradicts
its own documented intent (`@param val A int value` to construct from): its
initializer list zeroes every field and never mentions `val`, so `getInt`
returns 0 whatever the argument was.  (The bool / int64 / uint64 / double /
string / object / array constructors do store their argument.) -/
theorem int_constructor_drops_value :
    ∀ x : Int, (jsonValueOfInt x).getInt = 0 ∧ (jsonValueOfInt x).getType = .VInt ∧
      (jsonValueOfInt 5).getInt ≠ 5 := by
  intro x
  have h : jsonValueOfInt x = jsonValueOfInt 5 := rfl
  rw [h]
  exact ⟨by decide, by decide, by decide⟩

/-- Step lemma: closing quote ends the string scan. -/
theorem gjs_quote (rest acc : List Char) :
    getJsonStringAux ('"' :: rest) acc = .ok (acc.reverse, rest) := by
  rw [getJsonStringAux.eq_2, if_pos rfl]

/-- Step lemma: a recognized escape appends its decoded character. -/
theorem gjs_esc_some {e ch : Char} (rest acc : List Char) (h : escDecode e = some ch) :
    getJsonStringAux ('\\' :: e :: rest) acc = getJsonStringAux rest (ch :: acc) := by
  rw [getJsonStringAux.eq_2, if_neg (by decide), if_pos rfl, getJsonStringEsc.eq_2, h]

/-- Step lemma: an unrecognized escape throws. -/
theorem gjs_esc_none {e : Char} (rest acc : List Char) (h : escDecode e = none) :
    getJsonStringAux ('\\' :: e :: rest) acc =
      .err ("Unrecognized escape sequence: \\" ++ String.mk [e]) := by
  rw [getJsonStringAux.eq_2, if_neg (by decide), if_pos rfl, getJsonStringEsc.eq_2, h]

/-- Step lemma: an ordinary character is copied verbatim. -/
theorem gjs_other {c : Char} (rest acc : List Char) (hq : c ≠ '"') (hb : c ≠ '\\') :
    getJsonStringAux (c :: rest) acc = getJsonStringAux rest (c :: acc) := by
  rw [getJsonStringAux.eq_2, if_neg hq, if_neg hb]

/-- A clean character is neither a quote nor a backslash. -/
theorem cleanChar_spec {c : Char} (h : cleanChar c = true) : c ≠ '"' ∧ c ≠ '\\' := by
  unfold cleanChar at h
  constructor
  · intro hc
    subst hc
    simp at h
  · intro hc
    subst hc
    simp at h

/-- A clean string is scanned verbatim up to the closing quote. -/
theorem gjs_clean :
    ∀ (s rest acc : List Char), cleanStr s = true →
      getJsonStringAux (s ++ '"' :: rest) acc = .ok (acc.reverse ++ s, rest) := by
  intro s
  induction s with
  | nil =>
    intro rest acc _
    simp [gjs_quote]
  | cons c s2 ih =>
    intro rest acc hcl
    have hc : cleanChar c = true := by
      unfold cleanStr at hcl
      exact List.all_eq_true.mp hcl c (List.mem_cons_self c s2)
    have hcl2 : cleanStr s2 = true := by
      unfold cleanStr at hcl ⊢
      rw [List.all_eq_true] at hcl ⊢
      intro x hx
      exact hcl x (List.mem_cons_of_mem c hx)
    obtain ⟨hq, hb⟩ := cleanChar_spec hc
    rw [List.cons_append, gjs_other _ _ hq hb, ih rest (c :: acc) hcl2]
    simp

/-- Without a quote anywhere in the remaining input, the string scanner cannot
succeed (bounded form for strong induction on the input length). -/
theorem gjs_no_quote_bounded :
    ∀ (n : Nat) (cs acc : List Char), cs.length ≤ n → '"' ∉ cs →
      (getJsonStringAux cs acc).isOkB = false := by
  intro n
  induction n with
  | zero =>
    intro cs acc hlen hmem
    have : cs = [] := List.length_eq_zero.mp (Nat.le_zero.mp hlen)
    subst this
    rfl
  | succ n ihn =>
    intro cs acc hlen hmem
    cases cs with
    | nil => rfl
    | cons c cs2 =>
      have hq : c ≠ '"' := fun hc => hmem (hc ▸ List.mem_cons_self c cs2)
      have hm2 : '"' ∉ cs2 := fun hx => hmem (List.mem_cons_of_mem c hx)
      by_cases hb : c = '\\'
      · subst hb
        rw [getJsonStringAux.eq_2, if_neg hq, if_pos rfl]
        cases cs2 with
        | nil => rfl
        | cons e cs3 =>
          have hm3 : '"' ∉ cs3 := fun hx => hm2 (List.mem_cons_of_mem e hx)
          rw [getJsonStringEsc.eq_2]
          cases hesc : escDecode e with
          | some ch =>
            simp only [hesc]
            apply ihn cs3 (ch :: acc) _ hm3
            simp at hlen
            omega
          | none => simp only [hesc]; rfl
      · rw [gjs_other _ _ hq hb]
        apply ihn cs2 (c :: acc) _ hm2
        simp at hlen
        omega

/-- Without a quote anywhere, the string scanner throws. -/
theorem gjs_no_quote (cs acc : List Char) (h : '"' ∉ cs) :
    (getJsonStringAux cs acc).isOkB = false :=
  gjs_no_quote_bounded cs.length cs acc le_rfl h

/-- Without quote and backslash, the failure is the missing-closing-quote
throw, with its exact message. -/
theorem gjs_no_quote_no_esc :
    ∀ (cs acc : List Char), '"' ∉ cs → '\\' ∉ cs →
      getJsonStringAux cs acc = .err ("Expected: \" ") := by
  intro cs
  induction cs with
  | nil => intro acc _ _; rfl
  | cons c cs2 ih =>
    intro acc hmq hmb
    have hq : c ≠ '"' := fun hc => hmq (hc ▸ List.mem_cons_self c cs2)
    have hb : c ≠ '\\' := fun hc => hmb (hc ▸ List.mem_cons_self c cs2)
    rw [gjs_other _ _ hq hb]
    exact ih (c :: acc) (fun hx => hmq (List.mem_cons_of_mem c hx))
      (fun hx => hmb (List.mem_cons_of_mem c hx))

/-- C9: scanning a quoted string maps each recognized escape to its character
(first conjunct, using the decode table whose eight entries the second
conjunct lists), throws `Unrecognized escape sequence` on any other escaped
character, and cannot succeed when no closing quote remains (with the exact
`Expected` message when no backslash complicates the failure); parsing the
text with an escaped newline and an escaped quote yields the literal payload,
and serializing that payload re-escapes both. -/
theorem string_escape_fidelity :
    (∀ (e ch : Char) (rest acc : List Char), escDecode e = some ch →
      getJsonStringAux ('\\' :: e :: rest) acc = getJsonStringAux rest (ch :: acc)) ∧
    (escDecode '/' = some '/' ∧ escDecode '"' = some '"' ∧ escDecode '\\' = some '\\' ∧
      escDecode 'b' = some '\x08' ∧ escDecode 'f' = some '\x0c' ∧
      escDecode 'n' = some '\n' ∧ escDecode 'r' = some '\r' ∧ escDecode 't' = some '\t' ∧
      (∀ e : Char, e ∉ ['/', '"', '\\', 'b', 'f', 'n', 'r', 't'] → escDecode e = none)) ∧
    (∀ (e : Char) (rest acc : List Char), escDecode e = none →
      getJsonStringAux ('\\' :: e :: rest) acc =
        .err ("Unrecognized escape sequence: \\" ++ String.mk [e])) ∧
    (∀ (cs acc : List Char), '"' ∉ cs → (getJsonStringAux cs acc).isOkB = false) ∧
    (∀ (cs acc : List Char), '"' ∉ cs → '\\' ∉ cs →
      getJsonStringAux cs acc = .err ("Expected: \" ")) ∧
    resStr (readJson ("\"a\\nb\\\"c\"".toList)) = some (.VString, ['a', '\n', 'b', '"', 'c']) ∧
    writeText (jsonValueOfString ['a', '\n', 'b', '"', 'c']) = "\"a\\nb\\\"c\"".toList := by
  refine ⟨?_, ?_, ?_, gjs_no_quote, gjs_no_quote_no_esc, by decide, ?_⟩
  · intro e ch rest acc h
    exact gjs_esc_some rest acc h
  · refine ⟨by decide, by decide, by decide, by decide, by decide, by decide, by decide,
      by decide, ?_⟩
    intro e hmem
    unfold escDecode
    rw [if_neg, if_neg, if_neg, if_neg, if_neg, if_neg, if_neg, if_neg]
    all_goals intro hc
    all_goals exact hmem (by rw [hc]; decide)
  · intro e rest acc h
    exact gjs_esc_none rest acc h
  · show writeV 0 (jsonValueOfString ['a', '\n', 'b', '"', 'c']) = _
    rw [jsonValueOfString, writeV]
    decide

/-- C9 witness: the general conjuncts applied at concrete inputs — the escape
`\n` is decoded inside a scan, an escaped `q` is rejected, and a quoteless
tail fails. -/
theorem string_escape_fidelity_witness :
    getJsonStringAux ['\\', 'n', '"'] [] = getJsonStringAux ['"'] ['\n'] ∧
    getJsonStringAux ['\\', 'q', '"'] [] =
      .err ("Unrecognized escape sequence: \\" ++ String.mk ['q']) ∧
    (getJsonStringAux ['a', 'b'] []).isOkB = false ∧
    getJsonStringAux ['a', 'b'] [] = .err ("Expected: \" ") := by
  refine ⟨?_, ?_, ?_, ?_⟩
  · exact string_escape_fidelity.1 'n' '\n' ['"'] [] (by decide)
  · exact string_escape_fidelity.2.2.1 'q' ['"'] [] (by decide)
  · exact string_escape_fidelity.2.2.2.1 ['a', 'b'] [] (by decide)
  · exact string_escape_fidelity.2.2.2.2.1 ['a', 'b'] [] (by decide) (by decide)

/-- C5: parsing an object whose member key is already present fails with the
`Duplicate member` error (concrete input with two `a` keys), and in general the
member loop, upon finding the key of the member it just read already bound in
the object built so far, throws before inserting anything — the earlier value
is never overwritten, as no updated object escapes the failed call. -/
theorem duplicate_member_rejected :
    resErr (readJson ("\x7b\"a\":1,\"a\":2\x7d".toList)) = some ("Duplicate member: a") ∧
    ∀ (fuel : Nat) (key : List Char) (ts : List JsonToken)
      (obj : List (List Char × JsonValue)) (v0 : JsonValue)
      (pr : JsonValue × List JsonToken),
      objFind key obj = some v0 →
      parseValueF fuel ts = .ok pr →
      parseObjectLoopF (fuel + 1) (mkTok .TString key :: mkTok .Assign [':'] :: ts) obj =
        .err ("Duplicate member: " ++ String.mk key) := by
  constructor
  · decide
  · intro fuel key ts obj v0 pr hfind hpv
    rw [parseObjectLoopF]
    simp only [mkTok, hpv, hfind]
    rfl

/-- C5 witness: the general duplicate-member lemma applied to a one-member
object that already binds the key `a`. -/
theorem duplicate_member_rejected_witness :
    objFind ['a'] [(['a'], jsonValueOfInt 1)] = some (jsonValueOfInt 1) ∧
    parseValueF 1 [mkTok .TNumber ['2'], mkTok .ObjectEnd ['\x7d']] =
      .ok (parseNumberVal ['2'], [mkTok .ObjectEnd ['\x7d']]) ∧
    parseObjectLoopF 2 (mkTok .TString ['a'] :: mkTok .Assign [':'] ::
        [mkTok .TNumber ['2'], mkTok .ObjectEnd ['\x7d']]) [(['a'], jsonValueOfInt 1)] =
      .err ("Duplicate member: " ++ String.mk ['a']) := by
  refine ⟨rfl, rfl, ?_⟩
  exact duplicate_member_rejected.2 1 ['a'] [mkTok .TNumber ['2'], mkTok .ObjectEnd ['\x7d']]
    [(['a'], jsonValueOfInt 1)] (jsonValueOfInt 1)
    (parseNumberVal ['2'], [mkTok .ObjectEnd ['\x7d']]) rfl rfl

/-- C7: each of the eight conversion operators succeeds exactly when the tag
matches its target type, returning the corresponding getter value, and throws
`bad_cast` otherwise; the typed getters read the stored field without any tag
check, so changing only the tag never changes what a getter returns. -/
theorem conversions_check_tag_getters_do_not :
    ∀ v : JsonValue,
      ((v.asInt.isOkB = true) ↔ v.getType = .VInt) ∧
      ((v.asDouble.isOkB = true) ↔ v.getType = .VDouble) ∧
      ((v.asBool.isOkB = true) ↔ v.getType = .VBoolean) ∧
      ((v.asInt64.isOkB = true) ↔ v.getType = .VInt64) ∧
      ((v.asUint64.isOkB = true) ↔ v.getType = .VUint64) ∧
      ((v.asString.isOkB = true) ↔ v.getType = .VString) ∧
      ((v.asObject.isOkB = true) ↔ v.getType = .VObject) ∧
      ((v.asArray.isOkB = true) ↔ v.getType = .VArray) ∧
      (v.getType = .VInt → v.asInt = .ok v.getInt) ∧
      (v.getType ≠ .VInt → v.asInt = .err ("bad_cast")) ∧
      (v.getType = .VDouble → v.asDouble = .ok v.getDouble) ∧
      (v.getType ≠ .VDouble → v.asDouble = .err ("bad_cast")) ∧
      (v.getType = .VBoolean → v.asBool = .ok v.getBool) ∧
      (v.getType ≠ .VBoolean → v.asBool = .err ("bad_cast")) ∧
      (v.getType = .VInt64 → v.asInt64 = .ok v.getInt64) ∧
      (v.getType ≠ .VInt64 → v.asInt64 = .err ("bad_cast")) ∧
      (v.getType = .VUint64 → v.asUint64 = .ok v.getUint64) ∧
      (v.getType ≠ .VUint64 → v.asUint64 = .err ("bad_cast")) ∧
      (v.getType = .VString → v.asString = .ok v.getString) ∧
      (v.getType ≠ .VString → v.asString = .err ("bad_cast")) ∧
      (v.getType = .VObject → v.asObject = .ok v.getObject) ∧
      (v.getType ≠ .VObject → v.asObject = .err ("bad_cast")) ∧
      (v.getType = .VArray → v.asArray = .ok v.getArray) ∧
      (v.getType ≠ .VArray → v.asArray = .err ("bad_cast")) ∧
      (∀ t : DataType,
        (v.setType t).getInt = v.getInt ∧ (v.setType t).getDouble = v.getDouble ∧
        (v.setType t).getInt64 = v.getInt64 ∧ (v.setType t).getUint64 = v.getUint64 ∧
        (v.setType t).getBool = v.getBool ∧ (v.setType t).getString = v.getString ∧
        (v.setType t).getObject = v.getObject ∧ (v.setType t).getArray = v.getArray) := by
  intro v
  refine ⟨?_, ?_, ?_, ?_, ?_, ?_, ?_, ?_, ?_, ?_, ?_, ?_, ?_, ?_, ?_, ?_, ?_, ?_, ?_, ?_,
    ?_, ?_, ?_, ?_, ?_⟩
  case _ => by_cases h : v.getType = .VInt <;> simp [JsonValue.asInt, h, JRes.isOkB]
  case _ => by_cases h : v.getType = .VDouble <;> simp [JsonValue.asDouble, h, JRes.isOkB]
  case _ => by_cases h : v.getType = .VBoolean <;> simp [JsonValue.asBool, h, JRes.isOkB]
  case _ => by_cases h : v.getType = .VInt64 <;> simp [JsonValue.asInt64, h, JRes.isOkB]
  case _ => by_cases h : v.getType = .VUint64 <;> simp [JsonValue.asUint64, h, JRes.isOkB]
  case _ => by_cases h : v.getType = .VString <;> simp [JsonValue.asString, h, JRes.isOkB]
  case _ => by_cases h : v.getType = .VObject <;> simp [JsonValue.asObject, h, JRes.isOkB]
  case _ => by_cases h : v.getType = .VArray <;> simp [JsonValue.asArray, h, JRes.isOkB]
  case _ => intro h; simp [JsonValue.asInt, h]
  case _ => intro h; simp [JsonValue.asInt, h]
  case _ => intro h; simp [JsonValue.asDouble, h]
  case _ => intro h; simp [JsonValue.asDouble, h]
  case _ => intro h; simp [JsonValue.asBool, h]
  case _ => intro h; simp [JsonValue.asBool, h]
  case _ => intro h; simp [JsonValue.asInt64, h]
  case _ => intro h; simp [JsonValue.asInt64, h]
  case _ => intro h; simp [JsonValue.asUint64, h]
  case _ => intro h; simp [JsonValue.asUint64, h]
  case _ => intro h; simp [JsonValue.asString, h]
  case _ => intro h; simp [JsonValue.asString, h]
  case _ => intro h; simp [JsonValue.asObject, h]
  case _ => intro h; simp [JsonValue.asObject, h]
  case _ => intro h; simp [JsonValue.asArray, h]
  case _ => intro h; simp [JsonValue.asArray, h]
  case _ =>
    intro t
    obtain ⟨d, i, u, b, s, o, a, t0⟩ := v
    exact ⟨rfl, rfl, rfl, rfl, rfl, rfl, rfl, rfl⟩

/-- C7 witness: on a freshly built Boolean value, the matching conversion
returns the payload, a mismatched conversion throws `bad_cast`, and the
`getInt` getter still reads the (zero) double field without complaint. -/
theorem conversions_check_tag_getters_do_not_witness :
    (jsonValueOfBool true).asBool = .ok ((jsonValueOfBool true).getBool) ∧
    (jsonValueOfBool true).asInt = .err ("bad_cast") ∧
    ((jsonValueOfBool true).setType .VString).getBool = (jsonValueOfBool true).getBool := by
  have h := conversions_check_tag_getters_do_not (jsonValueOfBool true)
  refine ⟨?_, ?_, ?_⟩
  · exact h.2.2.2.2.2.2.2.2.2.2.2.2.1 (by decide)
  · exact h.2.2.2.2.2.2.2.2.2.1 (by decide)
  · exact (h.2.2.2.2.2.2.2.2.2.2.2.2.2.2.2.2.2.2.2.2.2.2.2.2 .VString).2.2.2.2.1

/-- C8: `JsonArray::at(pos)` throws an out-of-range error exactly when `pos`
is not a valid index; its explicit guard fires only for `pos > size()`, so
`pos = size()` slips past the guard and it is the bounds-checked
`std::vector::at` that still throws there. -/
theorem array_at_off_by_one :
    ∀ (l : List JsonValue) (pos : Nat),
      ((jsonArrayAt l pos).isOkB = true ↔ pos < l.length) ∧
      (pos ≤ l.length → jsonArrayAt l pos = vectorAt l pos) ∧
      (l.length < pos → jsonArrayAt l pos = .err ("Index is out of range.")) ∧
      jsonArrayAt l l.length = .err ("vector out_of_range") := by
  intro l pos
  refine ⟨?_, ?_, ?_, ?_⟩
  · unfold jsonArrayAt vectorAt
    by_cases h1 : l.length < pos
    · rw [if_pos h1]
      simp only [JRes.isOkB]
      constructor
      · intro h; exact absurd h (by decide)
      · intro h; omega
    · rw [if_neg h1]
      by_cases h2 : pos < l.length
      · rw [dif_pos h2]
        simp only [JRes.isOkB]
        constructor
        · intro _; exact h2
        · intro _; trivial
      · rw [dif_neg h2]
        simp only [JRes.isOkB]
        constructor
        · intro h; exact absurd h (by decide)
        · intro h; exact absurd h h2
  · intro h
    unfold jsonArrayAt
    rw [if_neg (by omega)]
  · intro h
    unfold jsonArrayAt
    rw [if_pos h]
  · unfold jsonArrayAt vectorAt
    rw [if_neg (by omega), dif_neg (by omega)]

/-- C8 witness: on an array of size 3, index 3 passes the explicit guard but
still fails, with the `std::vector::at` out-of-range throw. -/
theorem array_at_off_by_one_witness :
    jsonArrayAt [jsonValueDefault, jsonValueDefault, jsonValueDefault] 3 =
      .err ("vector out_of_range") ∧
    (jsonArrayAt [jsonValueDefault, jsonValueDefault, jsonValueDefault] 3).isOkB = false ∧
    jsonArrayAt [jsonValueDefault, jsonValueDefault, jsonValueDefault] 3 =
      vectorAt [jsonValueDefault, jsonValueDefault, jsonValueDefault] 3 := by
  have h := array_at_off_by_one [jsonValueDefault, jsonValueDefault, jsonValueDefault] 3
  have h3 : jsonArrayAt [jsonValueDefault, jsonValueDefault, jsonValueDefault] 3 =
      .err ("vector out_of_range") := h.2.2.2
  refine ⟨h3, ?_, h.2.1 (by decide)⟩
  rw [h3]
  rfl

/-- C10: at the public read interface, the empty input yields no tokens and
parsing throws `Unexpected json data end.`; any nonempty input consisting only
of whitespace scans to a single Empty token with empty text (the `case 0`
fallthrough after the trailing-whitespace skip), so reading it succeeds with a
null (`VEmpty`) value. -/
theorem read_empty_vs_whitespace :
    resErr (readJson []) = some ("Unexpected json data end.") ∧
    ∀ cs : List Char, cs ≠ [] → (∀ c ∈ cs, isWhiteSpace c = true) →
      scan cs = .ok [mkTok .TEmpty []] ∧
      readJson cs = .ok (jsonValueDefault.setType .VEmpty) := by
  constructor
  · decide
  · intro cs hne hws
    have hdrop : cs.dropWhile isWhiteSpace = [] := by
      rw [List.dropWhile_eq_nil_iff]
      exact hws
    obtain ⟨c, cs2, rfl⟩ : ∃ c cs2, cs = c :: cs2 := by
      cases cs with
      | nil => exact absurd rfl hne
      | cons c cs2 => exact ⟨c, cs2, rfl⟩
    have hscan : scan (c :: cs2) = .ok [mkTok .TEmpty []] := by
      show scanF ((c :: cs2).length + 1) (c :: cs2) = _
      have hlen : (c :: cs2).length + 1 = (cs2.length + 1) + 1 := by simp
      rw [hlen, scanF.eq_3, hdrop]
    refine ⟨hscan, ?_⟩
    unfold readJson
    rw [hscan]
    rfl

/-- C10 witness: a single blank is a nonempty all-whitespace input; it scans
to one Empty token and reads back as a null value. -/
theorem read_empty_vs_whitespace_witness :
    scan [' '] = .ok [mkTok .TEmpty []] ∧
    readJson [' '] = .ok (jsonValueDefault.setType .VEmpty) :=
  read_empty_vs_whitespace.2 [' '] (by decide) (by decide)

/-- Numeric value of a digit string, with accumulator (the recurrence shared
by `readDigits`). -/
def natValAux : List Char → Nat → Nat
  | [], acc => acc
  | c :: cs, acc => natValAux cs (acc * 10 + (c.toNat - 48))

/-- Splitting `natValAux` over an append. -/
theorem natValAux_append (xs ys : List Char) (acc : Nat) :
    natValAux (xs ++ ys) acc = natValAux ys (natValAux xs acc) := by
  induction xs generalizing acc with
  | nil => rfl
  | cons c t ih =>
    rw [List.cons_append]
    show natValAux (t ++ ys) (acc * 10 + (c.toNat - 48)) =
      natValAux ys (natValAux t (acc * 10 + (c.toNat - 48)))
    exact ih _

/-- The accumulator contributes its value shifted by the digit count. -/
theorem natValAux_acc (ds : List Char) (acc : Nat) :
    natValAux ds acc = acc * 10 ^ ds.length + natValAux ds 0 := by
  induction ds generalizing acc with
  | nil => simp [natValAux]
  | cons c t ih =>
    show natValAux t (acc * 10 + (c.toNat - 48)) =
      acc * 10 ^ (c :: t).length + natValAux (c :: t) 0
    rw [ih]
    have h0 : natValAux (c :: t) 0 = natValAux t (c.toNat - 48) := by
      show natValAux t (0 * 10 + (c.toNat - 48)) = _
      rw [Nat.zero_mul, Nat.zero_add]
    rw [h0, ih (c.toNat - 48)]
    simp [List.length_cons]
    ring

/-- `readDigits` consumes exactly a leading digit run. -/
theorem readDigits_spec :
    ∀ (ds rest : List Char) (acc : Nat), (∀ c ∈ ds, isDigitC c = true) →
      (∀ c ∈ rest.head?, isDigitC c = false) →
      readDigits (ds ++ rest) acc = (natValAux ds acc, ds.length, rest) := by
  intro ds
  induction ds with
  | nil =>
    intro rest acc _ hrest
    cases rest with
    | nil => rfl
    | cons c t =>
      have hc : isDigitC c = false := hrest c (by simp)
      simp [readDigits, hc, natValAux]
  | cons c ds ih =>
    intro rest acc hds hrest
    have hc : isDigitC c = true := hds c (List.mem_cons_self c ds)
    rw [List.cons_append, readDigits]
    simp only [hc, if_pos]
    rw [ih rest (acc * 10 + (c.toNat - 48))
      (fun x hx => hds x (List.mem_cons_of_mem c hx)) hrest]
    rfl

/-- `readDigits` on a pure digit string consumes everything. -/
theorem readDigits_all (ds : List Char) (acc : Nat) (h : ∀ c ∈ ds, isDigitC c = true) :
    readDigits ds acc = (natValAux ds acc, ds.length, []) := by
  have := readDigits_spec ds [] acc h (by simp)
  rwa [List.append_nil] at this

/-- Bridge from the Boolean digit test to the code-point range. -/
theorem isDigitC_toNat {c : Char} (h : isDigitC c = true) :
    48 ≤ c.toNat ∧ c.toNat ≤ 57 := by
  unfold isDigitC at h
  rw [Bool.and_eq_true] at h
  obtain ⟨h1, h2⟩ := h
  rw [decide_eq_true_iff] at h1 h2
  rw [Char.le_def] at h1 h2
  exact ⟨h1, h2⟩

/-- Characters differing in code point differ. -/
theorem char_ne_of_toNat {c d : Char} (h : c.toNat ≠ d.toNat) : c ≠ d :=
  fun hc => h (hc ▸ rfl)

/-- Fuel irrelevance for the decimal rendering of naturals. -/
theorem natTextF_stable :
    ∀ (n fuel fuel2 : Nat), n < fuel → n < fuel2 → natTextF fuel n = natTextF fuel2 n := by
  intro n
  induction n using Nat.strong_induction_on with
  | _ n ih =>
    intro fuel fuel2 h1 h2
    match fuel, fuel2 with
    | f + 1, f2 + 1 =>
      rw [natTextF, natTextF]
      by_cases h : n < 10
      · rw [if_pos h, if_pos h]
      · rw [if_neg h, if_neg h]
        have hd : n / 10 < n := Nat.div_lt_self (by omega) (by omega)
        rw [ih (n / 10) hd f f2 (by omega) (by omega)]

/-- Rendering of a single-digit number. -/
theorem natText_low {n : Nat} (h : n < 10) : natText n = [digitChar n] := by
  rw [natText, natTextF, if_pos h]

/-- Rendering of a multi-digit number peels off the last digit. -/
theorem natText_high {n : Nat} (h : 10 ≤ n) :
    natText n = natText (n / 10) ++ [digitChar (n % 10)] := by
  rw [natText, natTextF, if_neg (by omega)]
  have hd : n / 10 < n := Nat.div_lt_self (by omega) (by omega)
  rw [natTextF_stable (n / 10) n (n / 10 + 1) hd (by omega)]
  rfl

/-- The rendered digit characters are digits. -/
theorem digitChar_digit {n : Nat} (h : n < 10) : isDigitC (digitChar n) = true := by
  interval_cases n <;> decide

/-- Code point of a rendered digit. -/
theorem digitChar_toNat {n : Nat} (h : n < 10) : (digitChar n).toNat = 48 + n := by
  interval_cases n <;> decide

/-- All characters of `natText` are digits. -/
theorem natText_digits : ∀ n : Nat, ∀ c ∈ natText n, isDigitC c = true := by
  intro n
  induction n using Nat.strong_induction_on with
  | _ n ih =>
    intro c hc
    by_cases h : n < 10
    · rw [natText_low h] at hc
      rw [List.mem_singleton] at hc
      subst hc
      exact digitChar_digit h
    · rw [natText_high (by omega)] at hc
      rw [List.mem_append] at hc
      rcases hc with hc | hc
      · exact ih (n / 10) (Nat.div_lt_self (by omega) (by omega)) c hc
      · rw [List.mem_singleton] at hc
        subst hc
        exact digitChar_digit (Nat.mod_lt n (by omega))

/-- `natText` is never empty. -/
theorem natText_ne_nil (n : Nat) : natText n ≠ [] := by
  by_cases h : n < 10
  · rw [natText_low h]; simp
  · rw [natText_high (by omega)]; simp

/-- The rendered digits evaluate back to the number. -/
theorem natText_val : ∀ (n : Nat) (acc : Nat),
    natValAux (natText n) acc = acc * 10 ^ (natText n).length + n := by
  intro n
  induction n using Nat.strong_induction_on with
  | _ n ih =>
    intro acc
    by_cases h : n < 10
    · rw [natText_low h]
      show natValAux [] (acc * 10 + ((digitChar n).toNat - 48)) = _
      rw [digitChar_toNat h]
      show acc * 10 + (48 + n - 48) = acc * 10 ^ [digitChar n].length + n
      simp only [List.length_singleton, pow_one]
      omega
    · rw [natText_high (by omega), natValAux_append]
      have hd : n / 10 < n := Nat.div_lt_self (by omega) (by omega)
      rw [ih (n / 10) hd acc]
      show natValAux []
          ((acc * 10 ^ (natText (n / 10)).length + n / 10) * 10 +
            ((digitChar (n % 10)).toNat - 48)) = _
      rw [digitChar_toNat (Nat.mod_lt n (by omega))]
      have hlen : (natText (n / 10) ++ [digitChar (n % 10)]).length =
          (natText (n / 10)).length + 1 := by simp
      rw [hlen, pow_succ]
      show (acc * 10 ^ (natText (n / 10)).length + n / 10) * 10 + (48 + n % 10 - 48) =
        acc * (10 ^ (natText (n / 10)).length * 10) + n
      have h48 : 48 + n % 10 - 48 = n % 10 := by omega
      rw [h48, Nat.add_mul, Nat.add_assoc]
      have hqr : n / 10 * 10 + n % 10 = n := by omega
      rw [hqr, Nat.mul_assoc]

theorem mkRat_one_q (n : Int) : mkRat n 1 = (n : ℚ) := by
  rw [Rat.mkRat_eq_div]
  simp

theorem parseDecSign_nosign {c : Char} (t : List Char) (h1 : c ≠ '-') (h2 : c ≠ '+') :
    parseDecSign (c :: t) = (1, c :: t) := by
  simp [parseDecSign, h1, h2]

theorem parseDecSign_negc (t : List Char) : parseDecSign ('-' :: t) = (-1, t) := by
  simp [parseDecSign]

theorem digit_not_sign {c : Char} (hc : isDigitC c = true) : c ≠ '-' ∧ c ≠ '+' := by
  have h := isDigitC_toNat hc
  exact ⟨char_ne_of_toNat (by rw [show ('-').toNat = 45 from rfl]; omega),
    char_ne_of_toNat (by rw [show ('+').toNat = 43 from rfl]; omega)⟩

/-- Main decomposition: parse of unsigned digits, then dot, then digits. -/
theorem parseDec_ip_fp (c : Char) (it fp : List Char)
    (hipd : ∀ x ∈ c :: it, isDigitC x = true) (hfpd : ∀ x ∈ fp, isDigitC x = true) :
    parseDec ((c :: it) ++ '.' :: fp) =
      mkRat ((natValAux (c :: it) 0 : Int) * 10 ^ fp.length + (natValAux fp 0 : Int))
        (10 ^ fp.length) := by
  obtain ⟨h1, h2⟩ := digit_not_sign (hipd c (List.mem_cons_self c it))
  have hsp : parseDecSign ((c :: it) ++ '.' :: fp) = (1, (c :: it) ++ '.' :: fp) :=
    parseDecSign_nosign _ h1 h2
  have hip : readDigits ((c :: it) ++ '.' :: fp) 0 =
      (natValAux (c :: it) 0, (c :: it).length, '.' :: fp) :=
    readDigits_spec (c :: it) ('.' :: fp) 0 hipd
      (by intro x hx; simp at hx; subst hx; decide)
  have hfp : readDigits fp 0 = (natValAux fp 0, fp.length, []) := readDigits_all fp 0 hfpd
  have hfrac : parseDecFrac ('.' :: fp) = (natValAux fp 0, fp.length, []) := by
    simp [parseDecFrac, hfp]
  simp only [parseDec, hsp, hip, hfrac]
  simp [parseDecExp]

theorem parseDec_neg_ip_fp (c : Char) (it fp : List Char)
    (hipd : ∀ x ∈ c :: it, isDigitC x = true) (hfpd : ∀ x ∈ fp, isDigitC x = true) :
    parseDec ('-' :: ((c :: it) ++ '.' :: fp)) =
      -mkRat ((natValAux (c :: it) 0 : Int) * 10 ^ fp.length + (natValAux fp 0 : Int))
        (10 ^ fp.length) := by
  have hip : readDigits ((c :: it) ++ '.' :: fp) 0 =
      (natValAux (c :: it) 0, (c :: it).length, '.' :: fp) :=
    readDigits_spec (c :: it) ('.' :: fp) 0 hipd
      (by intro x hx; simp at hx; subst hx; decide)
  have hfp : readDigits fp 0 = (natValAux fp 0, fp.length, []) := readDigits_all fp 0 hfpd
  have hfrac : parseDecFrac ('.' :: fp) = (natValAux fp 0, fp.length, []) := by
    simp [parseDecFrac, hfp]
  simp only [parseDec, parseDecSign_negc, hip, hfrac]
  simp [parseDecExp, Rat.neg_mkRat]

theorem parseDec_digits (c : Char) (t : List Char)
    (h : ∀ x ∈ c :: t, isDigitC x = true) :
    parseDec (c :: t) = (natValAux (c :: t) 0 : ℚ) := by
  obtain ⟨h1, h2⟩ := digit_not_sign (h c (List.mem_cons_self c t))
  have hsp : parseDecSign (c :: t) = (1, c :: t) := parseDecSign_nosign _ h1 h2
  have hra : readDigits (c :: t) 0 = (natValAux (c :: t) 0, (c :: t).length, []) :=
    readDigits_all (c :: t) 0 h
  simp only [parseDec, hsp, hra]
  simp [parseDecFrac, parseDecExp, mkRat_one_q]

theorem parseDec_neg_digits (c : Char) (t : List Char)
    (h : ∀ x ∈ c :: t, isDigitC x = true) :
    parseDec ('-' :: c :: t) = -(natValAux (c :: t) 0 : ℚ) := by
  have hra : readDigits (c :: t) 0 = (natValAux (c :: t) 0, (c :: t).length, []) :=
    readDigits_all (c :: t) 0 h
  simp only [parseDec, parseDecSign_negc, hra]
  simp [parseDecFrac, parseDecExp, mkRat_one_q]

theorem natText_cons (n : Nat) : ∃ c t, natText n = c :: t := by
  cases h : natText n with
  | nil => exact absurd h (natText_ne_nil n)
  | cons c t => exact ⟨c, t, rfl⟩

theorem natValAux_natText (n : Nat) : natValAux (natText n) 0 = n := by
  have := natText_val n 0
  rwa [Nat.zero_mul, Nat.zero_add] at this

theorem parseDec_natText (n : Nat) : parseDec (natText n) = (n : ℚ) := by
  obtain ⟨c, t, hct⟩ := natText_cons n
  rw [hct, parseDec_digits c t (by rw [← hct]; exact natText_digits n), ← hct,
    natValAux_natText]

theorem parseDec_intText (i : Int) : parseDec (intText i) = (i : ℚ) := by
  by_cases h : i < 0
  · rw [intText, if_pos h]
    obtain ⟨c, t, hct⟩ := natText_cons i.natAbs
    rw [hct, parseDec_neg_digits c t (by rw [← hct]; exact natText_digits _), ← hct,
      natValAux_natText]
    rw [Int.cast_natAbs, abs_of_neg (by exact_mod_cast h)]
    push_cast
    ring
  · rw [intText, if_neg h, parseDec_natText]
    rw [Int.cast_natAbs, show |i| = i from abs_of_nonneg (by omega)]

theorem hasFinDec_dvd {q : ℚ} (h : hasFinDec q = true) : q.den ∣ 10 ^ finDecK q := by
  unfold hasFinDec at h
  simp at h
  exact Nat.dvd_of_mod_eq_zero h

theorem finDecK_pos {q : ℚ} (hden : q.den ≠ 1) (h : hasFinDec q = true) :
    1 ≤ finDecK q := by
  by_contra hk
  have hk0 : finDecK q = 0 := by omega
  have := hasFinDec_dvd h
  rw [hk0, pow_zero] at this
  exact hden (Nat.eq_one_of_dvd_one this)

theorem natValAux_pad (z : Nat) (ds : List Char) :
    natValAux (List.replicate z '0' ++ ds) 0 = natValAux ds 0 := by
  induction z with
  | zero => rfl
  | succ z ih =>
    rw [List.replicate_succ, List.cons_append]
    show natValAux (List.replicate z '0' ++ ds) (0 * 10 + (('0').toNat - 48)) = _
    rw [show 0 * 10 + (('0').toNat - 48) = 0 from by decide]
    exact ih

theorem replicate_zero_digits (z : Nat) : ∀ c ∈ List.replicate z '0', isDigitC c = true := by
  intro c hc
  rw [List.eq_of_mem_replicate hc]
  decide

/-- Shape and value of the dotted digit rendering when the fraction length is
positive. -/
theorem fracDot_spec (ds : List Char) (k : Nat) (hk : 1 ≤ k)
    (hds : ∀ c ∈ ds, isDigitC c = true) :
    ∃ c it fp, fracDot ds k = (c :: it) ++ '.' :: fp ∧
      (∀ x ∈ c :: it, isDigitC x = true) ∧ (∀ x ∈ fp, isDigitC x = true) ∧
      fp.length = k ∧
      natValAux (c :: it) 0 * 10 ^ k + natValAux fp 0 = natValAux ds 0 := by
  set ds2 := if ds.length ≤ k then List.replicate (k + 1 - ds.length) '0' ++ ds else ds with hds2
  have hds2d : ∀ c ∈ ds2, isDigitC c = true := by
    rw [hds2]
    split
    · intro c hc
      rw [List.mem_append] at hc
      rcases hc with hc | hc
      · exact replicate_zero_digits _ c hc
      · exact hds c hc
    · exact hds
  have hlen2 : k + 1 ≤ ds2.length := by
    rw [hds2]
    split
    · next hle => simp; omega
    · next hgt => omega
  have hval2 : natValAux ds2 0 = natValAux ds 0 := by
    rw [hds2]
    split
    · exact natValAux_pad _ ds
    · rfl
  have hsplit := List.take_append_drop (ds2.length - k) ds2
  set ip := ds2.take (ds2.length - k) with hip
  set fp := ds2.drop (ds2.length - k) with hfp
  have hiplen : ip.length = ds2.length - k := by
    rw [hip, List.length_take]
    omega
  have hfplen : fp.length = k := by
    rw [hfp, List.length_drop]
    omega
  obtain ⟨c, it, hcit⟩ : ∃ c it, ip = c :: it := by
    cases hie : ip with
    | nil => rw [hie] at hiplen; simp at hiplen; omega
    | cons c it => exact ⟨c, it, rfl⟩
  refine ⟨c, it, fp, ?_, ?_, ?_, hfplen, ?_⟩
  · rw [fracDot, if_neg (by omega), ← hds2]
    show ds2.take (ds2.length - k) ++ '.' :: ds2.drop (ds2.length - k) = (c :: it) ++ '.' :: fp
    rw [← hip, ← hfp, hcit]
  · intro x hx
    rw [← hcit] at hx
    exact hds2d x (List.mem_of_mem_take hx)
  · intro x hx
    exact hds2d x (List.mem_of_mem_drop hx)
  · rw [← hcit, ← hval2, ← hsplit, natValAux_append, natValAux_acc fp (natValAux ip 0), hfplen]

theorem parseDec_doubleText (q : ℚ) (hden : q.den ≠ 1) (hfin : hasFinDec q = true) :
    parseDec (doubleText q) = q := by
  have hk := finDecK_pos hden hfin
  have hdvd := hasFinDec_dvd hfin
  have hden0 : q.den ≠ 0 := q.den_nz
  set m := 10 ^ finDecK q / q.den with hmdef
  have hm10 : q.den * m = 10 ^ finDecK q := Nat.mul_div_cancel' hdvd
  have hm0 : m ≠ 0 := by
    intro h0
    rw [h0, Nat.mul_zero] at hm10
    exact absurd hm10.symm (pow_ne_zero _ (by norm_num))
  have hnm : q.num.natAbs * 10 ^ finDecK q / q.den = q.num.natAbs * m := by
    conv_lhs => rw [← hm10]
    rw [show q.num.natAbs * (q.den * m) = q.num.natAbs * m * q.den from by ring]
    exact Nat.mul_div_cancel _ (by omega)
  obtain ⟨c, it, fp, hshape, hipd, hfpd, hfplen, hval⟩ :=
    fracDot_spec (natText (q.num.natAbs * 10 ^ finDecK q / q.den)) (finDecK q) hk
      (natText_digits _)
  have hvaln : natValAux (c :: it) 0 * 10 ^ finDecK q + natValAux fp 0 =
      q.num.natAbs * 10 ^ finDecK q / q.den := by
    rw [hval, natValAux_natText]
  have hcast : ((natValAux (c :: it) 0 : Int) * 10 ^ fp.length + (natValAux fp 0 : Int)) =
      ((q.num.natAbs * 10 ^ finDecK q / q.den : Nat) : Int) := by
    rw [hfplen]
    exact_mod_cast hvaln
  have hmk : mkRat ((q.num.natAbs * 10 ^ finDecK q / q.den : Nat) : Int) (10 ^ finDecK q) =
      mkRat ((q.num.natAbs : Nat) : Int) q.den := by
    rw [hnm]
    conv_lhs => rw [← hm10]
    rw [Nat.cast_mul]
    exact Rat.mkRat_mul_right hm0
  simp only [doubleText]
  by_cases hqn : q.num < 0
  · rw [if_pos hqn, hshape, parseDec_neg_ip_fp c it fp hipd hfpd, hcast, hfplen, hmk]
    rw [show ((q.num.natAbs : Nat) : Int) = -q.num from by omega]
    rw [Rat.neg_mkRat, neg_neg, Rat.mkRat_self]
  · rw [if_neg hqn, hshape, parseDec_ip_fp c it fp hipd hfpd, hcast, hfplen, hmk]
    rw [show ((q.num.natAbs : Nat) : Int) = q.num from by omega]
    rw [Rat.mkRat_self]

/-- All-whitespace strings (what the serializer inserts between tokens). -/
def wsOnly (ws : List Char) : Prop := ∀ c ∈ ws, isWhiteSpace c = true

theorem dropWhile_ws {ws : List Char} (hws : wsOnly ws) {c : Char}
    (hc : isWhiteSpace c = false) (rest : List Char) :
    (ws ++ c :: rest).dropWhile isWhiteSpace = c :: rest := by
  induction ws with
  | nil => simp [List.dropWhile_cons, hc]
  | cons w t ih =>
    rw [List.cons_append, List.dropWhile_cons, if_pos]
    · exact ih (fun x hx => hws x (List.mem_cons_of_mem w hx))
    · rw [hws w (List.mem_cons_self w t)]

theorem tabs_ws (n : Nat) : wsOnly (tabs n) := by
  intro c hc
  rw [List.eq_of_mem_replicate hc]
  rfl

theorem wsOnly_nil : wsOnly [] := by intro c hc; simp at hc

theorem wsOnly_append {a b : List Char} (ha : wsOnly a) (hb : wsOnly b) : wsOnly (a ++ b) := by
  intro c hc
  rw [List.mem_append] at hc
  rcases hc with hc | hc
  · exact ha c hc
  · exact hb c hc

theorem wsOnly_cons {c : Char} (hc : isWhiteSpace c = true) {t : List Char} (ht : wsOnly t) :
    wsOnly (c :: t) := by
  intro x hx
  rcases List.mem_cons.mp hx with hx | hx
  · rwa [hx]
  · exact ht x hx

theorem scan_tok_objStart (fuel : Nat) {ws : List Char} (rest : List Char) (hws : wsOnly ws) :
    scanF (fuel + 1) (ws ++ '\x7b' :: rest) =
      jcons (mkTok .ObjectStart ['\x7b']) (scanF fuel rest) := by
  obtain ⟨a, t, hat⟩ : ∃ a t, ws ++ '\x7b' :: rest = a :: t := by
    cases ws with
    | nil => exact ⟨_, _, rfl⟩
    | cons w tl => exact ⟨_, _, rfl⟩
  rw [hat, scanF.eq_3, ← hat, dropWhile_ws hws (by decide) rest]
  simp

theorem scan_tok_objEnd (fuel : Nat) {ws : List Char} (rest : List Char) (hws : wsOnly ws) :
    scanF (fuel + 1) (ws ++ '\x7d' :: rest) =
      jcons (mkTok .ObjectEnd ['\x7d']) (scanF fuel rest) := by
  obtain ⟨a, t, hat⟩ : ∃ a t, ws ++ '\x7d' :: rest = a :: t := by
    cases ws with
    | nil => exact ⟨_, _, rfl⟩
    | cons w tl => exact ⟨_, _, rfl⟩
  rw [hat, scanF.eq_3, ← hat, dropWhile_ws hws (by decide) rest]
  simp

theorem scan_tok_arrStart (fuel : Nat) {ws : List Char} (rest : List Char) (hws : wsOnly ws) :
    scanF (fuel + 1) (ws ++ '[' :: rest) =
      jcons (mkTok .ArrayStart ['[']) (scanF fuel rest) := by
  obtain ⟨a, t, hat⟩ : ∃ a t, ws ++ '[' :: rest = a :: t := by
    cases ws with
    | nil => exact ⟨_, _, rfl⟩
    | cons w tl => exact ⟨_, _, rfl⟩
  rw [hat, scanF.eq_3, ← hat, dropWhile_ws hws (by decide) rest]
  simp

theorem scan_tok_arrEnd (fuel : Nat) {ws : List Char} (rest : List Char) (hws : wsOnly ws) :
    scanF (fuel + 1) (ws ++ ']' :: rest) =
      jcons (mkTok .ArrayEnd [']']) (scanF fuel rest) := by
  obtain ⟨a, t, hat⟩ : ∃ a t, ws ++ ']' :: rest = a :: t := by
    cases ws with
    | nil => exact ⟨_, _, rfl⟩
    | cons w tl => exact ⟨_, _, rfl⟩
  rw [hat, scanF.eq_3, ← hat, dropWhile_ws hws (by decide) rest]
  simp

theorem scan_tok_next (fuel : Nat) {ws : List Char} (rest : List Char) (hws : wsOnly ws) :
    scanF (fuel + 1) (ws ++ ',' :: rest) = jcons (mkTok .Next [',']) (scanF fuel rest) := by
  obtain ⟨a, t, hat⟩ : ∃ a t, ws ++ ',' :: rest = a :: t := by
    cases ws with
    | nil => exact ⟨_, _, rfl⟩
    | cons w tl => exact ⟨_, _, rfl⟩
  rw [hat, scanF.eq_3, ← hat, dropWhile_ws hws (by decide) rest]
  simp

theorem scan_tok_assign (fuel : Nat) {ws : List Char} (rest : List Char) (hws : wsOnly ws) :
    scanF (fuel + 1) (ws ++ ':' :: rest) = jcons (mkTok .Assign [':']) (scanF fuel rest) := by
  obtain ⟨a, t, hat⟩ : ∃ a t, ws ++ ':' :: rest = a :: t := by
    cases ws with
    | nil => exact ⟨_, _, rfl⟩
    | cons w tl => exact ⟨_, _, rfl⟩
  rw [hat, scanF.eq_3, ← hat, dropWhile_ws hws (by decide) rest]
  simp

theorem scan_tok_string (fuel : Nat) {ws : List Char} (content rest : List Char)
    (hws : wsOnly ws) (hcl : cleanStr content = true) :
    scanF (fuel + 1) (ws ++ '"' :: (content ++ '"' :: rest)) =
      jcons (mkTok .TString content) (scanF fuel rest) := by
  obtain ⟨a, t, hat⟩ : ∃ a t, ws ++ '"' :: (content ++ '"' :: rest) = a :: t := by
    cases ws with
    | nil => exact ⟨_, _, rfl⟩
    | cons w tl => exact ⟨_, _, rfl⟩
  rw [hat, scanF.eq_3, ← hat, dropWhile_ws hws (by decide) _]
  have hg : getJsonString (content ++ '"' :: rest) = .ok (content, rest) := by
    rw [getJsonString, gjs_clean content rest [] hcl]
    rfl
  simp [hg]

theorem span_p {p : Char → Bool} :
    ∀ (l1 l2 : List Char), (∀ x ∈ l1, p x = true) → (∀ x ∈ l2.head?, p x = false) →
      (l1 ++ l2).takeWhile p = l1 ∧ (l1 ++ l2).dropWhile p = l2 := by
  intro l1
  induction l1 with
  | nil =>
    intro l2 _ h2
    cases l2 with
    | nil => exact ⟨rfl, rfl⟩
    | cons c t =>
      have hc : p c = false := h2 c (by simp)
      simp [List.takeWhile_cons, List.dropWhile_cons, hc]
  | cons c l1 ih =>
    intro l2 h1 h2
    have hc : p c = true := h1 c (List.mem_cons_self c l1)
    have := ih l2 (fun x hx => h1 x (List.mem_cons_of_mem c hx)) h2
    simp [List.takeWhile_cons, List.dropWhile_cons, hc, this.1, this.2]

theorem numHead_not_ws {c0 : Char} (h : c0 = '-' ∨ isDigitC c0 = true) :
    isWhiteSpace c0 = false := by
  rcases h with h | h
  · rw [h]; rfl
  · have := isDigitC_toNat h
    unfold isWhiteSpace
    have h1 : c0 ≠ ' ' := char_ne_of_toNat (by rw [show (' ').toNat = 32 from rfl]; omega)
    have h2 : c0 ≠ '\t' := char_ne_of_toNat (by rw [show ('\t').toNat = 9 from rfl]; omega)
    have h3 : c0 ≠ '\n' := char_ne_of_toNat (by rw [show ('\n').toNat = 10 from rfl]; omega)
    have h4 : c0 ≠ '\r' := char_ne_of_toNat (by rw [show ('\r').toNat = 13 from rfl]; omega)
    simp [h1, h2, h3, h4]

theorem numHead_ne {c0 : Char} (h : c0 = '-' ∨ isDigitC c0 = true) :
    c0 ≠ '\x7b' ∧ c0 ≠ '\x7d' ∧ c0 ≠ '[' ∧ c0 ≠ ']' ∧ c0 ≠ ',' ∧ c0 ≠ ':' ∧ c0 ≠ '"' := by
  rcases h with h | h
  · subst h
    refine ⟨by decide, by decide, by decide, by decide, by decide, by decide, by decide⟩
  · have := isDigitC_toNat h
    refine ⟨char_ne_of_toNat (by rw [show ('\x7b').toNat = 123 from rfl]; omega),
      char_ne_of_toNat (by rw [show ('\x7d').toNat = 125 from rfl]; omega),
      char_ne_of_toNat (by rw [show ('[').toNat = 91 from rfl]; omega),
      char_ne_of_toNat (by rw [show (']').toNat = 93 from rfl]; omega),
      char_ne_of_toNat (by rw [show (',').toNat = 44 from rfl]; omega),
      char_ne_of_toNat (by rw [show (':').toNat = 58 from rfl]; omega),
      char_ne_of_toNat (by rw [show ('"').toNat = 34 from rfl]; omega)⟩

theorem scan_tok_number (fuel : Nat) {ws : List Char} {c0 : Char} {nt rest : List Char}
    (hws : wsOnly ws) (hhead : c0 = '-' ∨ isDigitC c0 = true)
    (hnum : ∀ x ∈ c0 :: nt, isNumericChar x = true)
    (hrest : ∀ x ∈ rest.head?, isNumericChar x = false) :
    scanF (fuel + 1) (ws ++ (c0 :: nt) ++ rest) =
      jcons (mkTok .TNumber (c0 :: nt)) (scanF fuel rest) := by
  obtain ⟨a, t, hat⟩ : ∃ a t, ws ++ (c0 :: nt) ++ rest = a :: t := by
    cases ws with
    | nil => exact ⟨_, _, rfl⟩
    | cons w tl => exact ⟨_, _, rfl⟩
  have hshape : ws ++ (c0 :: nt) ++ rest = ws ++ c0 :: (nt ++ rest) := by simp
  obtain ⟨hne1, hne2, hne3, hne4, hne5, hne6, hne7⟩ := numHead_ne hhead
  have hspan := span_p (c0 :: nt) rest hnum hrest
  have hgn : getJsonNumber (c0 :: (nt ++ rest)) = (c0 :: nt, rest) := by
    rw [getJsonNumber]
    rw [show c0 :: (nt ++ rest) = (c0 :: nt) ++ rest from by simp]
    rw [hspan.1, hspan.2]
  rw [hat, scanF.eq_3, ← hat, hshape, dropWhile_ws hws (numHead_not_ws hhead) _]
  have hdisp : (c0 = '-' || isDigitC c0) = true := by
    rcases hhead with h | h
    · rw [h]; rfl
    · rw [h]; simp
  simp [hne1, hne2, hne3, hne4, hne5, hne6, hne7, hdisp, hgn]

theorem scan_tok_true (fuel : Nat) {ws : List Char} (rest : List Char) (hws : wsOnly ws) :
    scanF (fuel + 1) (ws ++ "true".toList ++ rest) =
      jcons (mkTok .TBoolean ("true".toList)) (scanF fuel rest) := by
  obtain ⟨a, t, hat⟩ : ∃ a t, ws ++ "true".toList ++ rest = a :: t := by
    cases ws with
    | nil => exact ⟨_, _, rfl⟩
    | cons w tl => exact ⟨_, _, rfl⟩
  have hshape : ws ++ "true".toList ++ rest = ws ++ 't' :: ('r' :: 'u' :: 'e' :: rest) := by
    simp
  rw [hat, scanF.eq_3, ← hat, hshape, dropWhile_ws hws (by decide) _]
  have hgb : getJsonBoolean ('t' :: 'r' :: 'u' :: 'e' :: rest) = .ok ("true".toList, rest) := by
    rw [getJsonBoolean]
    simp [List.take, List.drop]
  simp [hgb, show isDigitC 't' = false from by decide]

theorem scan_tok_false (fuel : Nat) {ws : List Char} (rest : List Char) (hws : wsOnly ws) :
    scanF (fuel + 1) (ws ++ "false".toList ++ rest) =
      jcons (mkTok .TBoolean ("false".toList)) (scanF fuel rest) := by
  obtain ⟨a, t, hat⟩ : ∃ a t, ws ++ "false".toList ++ rest = a :: t := by
    cases ws with
    | nil => exact ⟨_, _, rfl⟩
    | cons w tl => exact ⟨_, _, rfl⟩
  have hshape : ws ++ "false".toList ++ rest = ws ++ 'f' :: ('a' :: 'l' :: 's' :: 'e' :: rest) := by
    simp
  rw [hat, scanF.eq_3, ← hat, hshape, dropWhile_ws hws (by decide) _]
  have hgb : getJsonBoolean ('f' :: 'a' :: 'l' :: 's' :: 'e' :: rest) =
      .ok ("false".toList, rest) := by
    rw [getJsonBoolean]
    simp [List.take, List.drop]
  simp [hgb, show isDigitC 'f' = false from by decide]

theorem scan_tok_null (fuel : Nat) {ws : List Char} (rest : List Char) (hws : wsOnly ws) :
    scanF (fuel + 1) (ws ++ "null".toList ++ rest) =
      jcons (mkTok .TEmpty []) (scanF fuel rest) := by
  obtain ⟨a, t, hat⟩ : ∃ a t, ws ++ "null".toList ++ rest = a :: t := by
    cases ws with
    | nil => exact ⟨_, _, rfl⟩
    | cons w tl => exact ⟨_, _, rfl⟩
  have hshape : ws ++ "null".toList ++ rest = ws ++ 'n' :: ('u' :: 'l' :: 'l' :: rest) := by
    simp
  rw [hat, scanF.eq_3, ← hat, hshape, dropWhile_ws hws (by decide) _]
  have hce : checkJsonEmpty ("null".toList) ('n' :: 'u' :: 'l' :: 'l' :: rest) = .ok rest := by
    rw [checkJsonEmpty]
    simp [takeNoSpace, show isSpaceC 'n' = false from by decide,
      show isSpaceC 'u' = false from by decide, show isSpaceC 'l' = false from by decide]
  have hce2 : checkJsonEmpty ['n', 'u', 'l', 'l'] ('n' :: 'u' :: 'l' :: 'l' :: rest) =
      .ok rest := hce
  simp [hce2, show isDigitC 'n' = false from by decide]

theorem isNumericChar_of_digit {c : Char} (h : isDigitC c = true) :
    isNumericChar c = true := by
  unfold isNumericChar
  rw [h]
  rfl

theorem intText_shape (i : Int) :
    ∃ c0 nt, intText i = c0 :: nt ∧ (c0 = '-' ∨ isDigitC c0 = true) ∧
      (∀ x ∈ intText i, isNumericChar x = true) := by
  rw [intText]
  by_cases h : i < 0
  · rw [if_pos h]
    obtain ⟨c, t, hct⟩ := natText_cons i.natAbs
    refine ⟨'-', natText i.natAbs, rfl, Or.inl rfl, ?_⟩
    intro x hx
    rcases List.mem_cons.mp hx with hx | hx
    · rw [hx]; rfl
    · exact isNumericChar_of_digit (natText_digits _ x hx)
  · rw [if_neg h]
    obtain ⟨c, t, hct⟩ := natText_cons i.natAbs
    exact ⟨c, t, hct, Or.inr (natText_digits _ c (hct ▸ List.mem_cons_self c t)),
      fun x hx => isNumericChar_of_digit (natText_digits _ x hx)⟩

theorem doubleText_shape (q : ℚ) (hden : q.den ≠ 1) (hfin : hasFinDec q = true) :
    ∃ c0 nt, doubleText q = c0 :: nt ∧ (c0 = '-' ∨ isDigitC c0 = true) ∧
      (∀ x ∈ doubleText q, isNumericChar x = true) := by
  have hk := finDecK_pos hden hfin
  obtain ⟨c, it, fp, hshape, hipd, hfpd, hfplen, hval⟩ :=
    fracDot_spec (natText (q.num.natAbs * 10 ^ finDecK q / q.den)) (finDecK q) hk
      (natText_digits _)
  have hbody : ∀ x ∈ (c :: it) ++ '.' :: fp, isNumericChar x = true := by
    intro x hx
    rw [List.mem_append] at hx
    rcases hx with hx | hx
    · exact isNumericChar_of_digit (hipd x hx)
    · rcases List.mem_cons.mp hx with hx | hx
      · rw [hx]; rfl
      · exact isNumericChar_of_digit (hfpd x hx)
  simp only [doubleText]
  rw [hshape]
  by_cases hqn : q.num < 0
  · rw [if_pos hqn]
    refine ⟨'-', _, rfl, Or.inl rfl, ?_⟩
    intro x hx
    rcases List.mem_cons.mp hx with hx | hx
    · rw [hx]; rfl
    · exact hbody x hx
  · rw [if_neg hqn]
    exact ⟨c, it ++ '.' :: fp, by simp, Or.inr (hipd c (List.mem_cons_self c it)),
      hbody⟩

theorem tokensOfV_object (d : ℚ) (i : Int) (u : Nat) (b : Bool) (s : List Char)
    (o : List (List Char × JsonValue)) (ar : List JsonValue) :
    tokensOfV (.mk d i u b s o ar .VObject) =
      mkTok .ObjectStart ['\x7b'] :: memberToks o ++ [mkTok .ObjectEnd ['\x7d']] := by
  rw [tokensOfV, memberToks]
  have h := List.attach_map_val o
      (fun kv => mkTok JsonTokenType.TString kv.1 :: mkTok JsonTokenType.Assign [':'] :: tokensOfV kv.2)
  exact congrArg (fun ms => mkTok .ObjectStart ['\x7b'] :: joinToks ms ++ [mkTok .ObjectEnd ['\x7d']]) h

theorem tokensOfV_array (d : ℚ) (i : Int) (u : Nat) (b : Bool) (s : List Char)
    (o : List (List Char × JsonValue)) (ar : List JsonValue) :
    tokensOfV (.mk d i u b s o ar .VArray) =
      mkTok .ArrayStart ['['] :: elemToks ar ++ [mkTok .ArrayEnd [']']] := by
  rw [tokensOfV, elemToks]
  simp [List.attach_map_val]

theorem writeV_object (depth : Nat) (d : ℚ) (i : Int) (u : Nat) (b : Bool) (s : List Char)
    (o : List (List Char × JsonValue)) (ar : List JsonValue) :
    writeV depth (.mk d i u b s o ar .VObject) =
      '\x7b' :: ((if o.isEmpty then [] else ['\n']) ++
        linesWithCommas (o.map (memberLine depth)) ++ tabs depth ++ ['\x7d']) := by
  rw [writeV]
  exact congrArg (fun ms => '\x7b' :: ((if o.isEmpty then [] else ['\n']) ++
      linesWithCommas ms ++ tabs depth ++ ['\x7d']))
    (List.attach_map_val o (memberLine depth))

theorem writeV_array (depth : Nat) (d : ℚ) (i : Int) (u : Nat) (b : Bool) (s : List Char)
    (o : List (List Char × JsonValue)) (ar : List JsonValue) :
    writeV depth (.mk d i u b s o ar .VArray) =
      '[' :: ((if ar.isEmpty then [] else ['\n']) ++
        linesWithCommas (ar.map (fun e => tabs (depth + 1) ++ writeV (depth + 1) e)) ++
        tabs depth ++ [']']) := by
  rw [writeV]
  exact congrArg (fun ms => '[' :: ((if ar.isEmpty then [] else ['\n']) ++
      linesWithCommas ms ++ tabs depth ++ [']']))
    (List.attach_map_val ar (fun e => tabs (depth + 1) ++ writeV (depth + 1) e))


theorem jcons_jappend (t : JsonToken) (ts : List JsonToken) (r : JRes (List JsonToken)) :
    jcons t (jappend ts r) = jappend (t :: ts) r := by
  cases r <;> rfl

theorem jappend_jappend (a b : List JsonToken) (r : JRes (List JsonToken)) :
    jappend a (jappend b r) = jappend (a ++ b) r := by
  cases r <;> simp [jappend]

theorem escEncode_clean {c : Char} (h : cleanChar c = true) : escEncode c = [c] := by
  rw [cleanChar] at h
  simp only [Bool.and_eq_true, decide_eq_true_eq] at h
  obtain ⟨⟨h1, h2⟩, h3⟩ := h
  rw [escEncode]
  rw [if_neg h1, if_neg h2]
  rw [if_neg (char_ne_of_toNat (by rw [show ('\x08').toNat = 8 from rfl]; omega))]
  rw [if_neg (char_ne_of_toNat (by rw [show ('\x0c').toNat = 12 from rfl]; omega))]
  rw [if_neg (char_ne_of_toNat (by rw [show ('\n').toNat = 10 from rfl]; omega))]
  rw [if_neg (char_ne_of_toNat (by rw [show ('\r').toNat = 13 from rfl]; omega))]
  rw [if_neg (char_ne_of_toNat (by rw [show ('\t').toNat = 9 from rfl]; omega))]
  rw [if_neg (by omega)]

theorem escape_clean {s : List Char} (h : cleanStr s = true) : escapeJsonString s = s := by
  induction s with
  | nil => rfl
  | cons c t ih =>
    rw [cleanStr, List.all_cons, Bool.and_eq_true] at h
    rw [escapeJsonString, escEncode_clean h.1, ih h.2]
    rfl

theorem joinToks_cons₂ (p q : List JsonToken) (ps : List (List JsonToken)) :
    joinToks (p :: q :: ps) = p ++ mkTok .Next [','] :: joinToks (q :: ps) := rfl

theorem lwc_cons₂ (p q : List Char) (ps : List (List Char)) :
    linesWithCommas (p :: q :: ps) = p ++ [',', '\n'] ++ linesWithCommas (q :: ps) := rfl

theorem memberToks_single (m : List Char × JsonValue) :
    memberToks [m] = mkTok .TString m.1 :: mkTok .Assign [':'] :: tokensOfV m.2 := rfl

theorem memberToks_cons₂ (m x : List Char × JsonValue) (xs : List (List Char × JsonValue)) :
    memberToks (m :: x :: xs) =
      (mkTok .TString m.1 :: mkTok .Assign [':'] :: tokensOfV m.2) ++
        mkTok .Next [','] :: memberToks (x :: xs) := rfl

theorem elemToks_single (e : JsonValue) : elemToks [e] = tokensOfV e := rfl

theorem elemToks_cons₂ (e x : JsonValue) (xs : List JsonValue) :
    elemToks (e :: x :: xs) = tokensOfV e ++ mkTok .Next [','] :: elemToks (x :: xs) := rfl

theorem jcons_eq_jappend (t : JsonToken) (r : JRes (List JsonToken)) :
    jcons t r = jappend [t] r := by
  cases r <;> rfl

theorem wsOnly_space : wsOnly [' '] := by
  intro c hc
  simp at hc
  subst hc
  rfl

theorem headNum_cons {c : Char} (h : isNumericChar c = false) (t : List Char) :
    ∀ x ∈ (c :: t).head?, isNumericChar x = false := by
  intro x hx
  simp at hx
  subst hx
  exact h

theorem scan_members (depth : Nat) :
    ∀ (ms : List (List Char × JsonValue)),
      (∀ kv ∈ ms, cleanStr kv.1 = true) →
      (∀ kv ∈ ms, ∀ (fuel : Nat) (ws rest : List Char), wsOnly ws →
          (∀ x ∈ rest.head?, isNumericChar x = false) →
          scanF (fuel + (tokensOfV kv.2).length) (ws ++ writeV (depth + 1) kv.2 ++ rest) =
            jappend (tokensOfV kv.2) (scanF fuel rest)) →
      ms ≠ [] →
      ∀ (fuel : Nat) (ws rest : List Char), wsOnly ws →
        scanF (fuel + ((memberToks ms).length + 1))
            (ws ++ linesWithCommas (ms.map (memberLine depth)) ++
              (tabs depth ++ '\x7d' :: rest)) =
          jappend (memberToks ms ++ [mkTok .ObjectEnd ['\x7d']]) (scanF fuel rest) := by
  intro ms
  induction ms with
  | nil => intro _ _ hne; exact absurd rfl hne
  | cons m tail ih =>
    intro hclean hIH _ fuel ws rest hws
    have hm1 : cleanStr m.1 = true := hclean m (by simp)
    have hIHm := hIH m (by simp)
    cases tail with
    | nil =>
      have htext : ws ++ linesWithCommas ([m].map (memberLine depth)) ++
            (tabs depth ++ '\x7d' :: rest) =
          (ws ++ tabs (depth + 1)) ++ '"' :: (m.1 ++ '"' ::
            ([' '] ++ ':' :: (' ' :: (writeV (depth + 1) m.2 ++
              ('\n' :: (tabs depth ++ '\x7d' :: rest)))))) := by
        simp [memberLine, linesWithCommas, writeQuoted, escape_clean hm1]
      rw [memberToks_single]
      simp only [List.length_cons]
      rw [show fuel + ((tokensOfV m.2).length + 1 + 1 + 1) =
          (fuel + ((tokensOfV m.2).length + 1 + 1)) + 1 from by omega]
      rw [htext]
      rw [scan_tok_string (fuel + ((tokensOfV m.2).length + 1 + 1)) m.1 _
        (wsOnly_append hws (tabs_ws _)) hm1]
      rw [show fuel + ((tokensOfV m.2).length + 1 + 1) =
          (fuel + ((tokensOfV m.2).length + 1)) + 1 from by omega]
      rw [scan_tok_assign (fuel + ((tokensOfV m.2).length + 1)) _ wsOnly_space]
      rw [show fuel + ((tokensOfV m.2).length + 1) = (fuel + 1) + (tokensOfV m.2).length
        from by omega]
      rw [show (' ' :: (writeV (depth + 1) m.2 ++ ('\n' :: (tabs depth ++ '\x7d' :: rest)))) =
          [' '] ++ writeV (depth + 1) m.2 ++ ('\n' :: (tabs depth ++ '\x7d' :: rest))
        from by simp]
      rw [hIHm (fuel + 1) [' '] ('\n' :: (tabs depth ++ '\x7d' :: rest)) wsOnly_space
        (headNum_cons (by decide) _)]
      rw [show ('\n' :: (tabs depth ++ '\x7d' :: rest)) = ('\n' :: tabs depth) ++ '\x7d' :: rest
        from by simp]
      rw [scan_tok_objEnd fuel rest (wsOnly_cons (by decide) (tabs_ws depth))]
      rw [jcons_eq_jappend (mkTok .ObjectEnd ['\x7d']), jappend_jappend,
        jcons_jappend, jcons_jappend]
      rfl
    | cons x xs =>
      have htext : ws ++ linesWithCommas ((m :: x :: xs).map (memberLine depth)) ++
            (tabs depth ++ '\x7d' :: rest) =
          (ws ++ tabs (depth + 1)) ++ '"' :: (m.1 ++ '"' ::
            ([' '] ++ ':' :: (' ' :: (writeV (depth + 1) m.2 ++
              (',' :: '\n' :: (linesWithCommas ((x :: xs).map (memberLine depth)) ++
                (tabs depth ++ '\x7d' :: rest))))))) := by
        rw [List.map_cons, List.map_cons, lwc_cons₂, ← List.map_cons (memberLine depth) x xs]
        simp [memberLine, writeQuoted, escape_clean hm1]
      rw [memberToks_cons₂]
      simp only [List.length_append, List.length_cons]
      rw [show fuel + ((tokensOfV m.2).length + 1 + 1 + ((memberToks (x :: xs)).length + 1) + 1) =
          ((((fuel + ((memberToks (x :: xs)).length + 1)) + 1) + (tokensOfV m.2).length) + 1) + 1
        from by omega]
      rw [htext]
      rw [scan_tok_string _ m.1 _ (wsOnly_append hws (tabs_ws _)) hm1]
      rw [scan_tok_assign _ _ wsOnly_space]
      rw [show (' ' :: (writeV (depth + 1) m.2 ++
            (',' :: '\n' :: (linesWithCommas ((x :: xs).map (memberLine depth)) ++
              (tabs depth ++ '\x7d' :: rest))))) =
          [' '] ++ writeV (depth + 1) m.2 ++
            (',' :: '\n' :: (linesWithCommas ((x :: xs).map (memberLine depth)) ++
              (tabs depth ++ '\x7d' :: rest)))
        from by simp]
      rw [hIHm _ [' '] _ wsOnly_space (headNum_cons (by decide) _)]
      rw [show (',' :: '\n' :: (linesWithCommas ((x :: xs).map (memberLine depth)) ++
            (tabs depth ++ '\x7d' :: rest))) =
          ([] : List Char) ++ ',' :: ('\n' :: (linesWithCommas ((x :: xs).map (memberLine depth)) ++
            (tabs depth ++ '\x7d' :: rest)))
        from by simp]
      rw [scan_tok_next _ _ wsOnly_nil]
      rw [show ('\n' :: (linesWithCommas ((x :: xs).map (memberLine depth)) ++
            (tabs depth ++ '\x7d' :: rest))) =
          ['\n'] ++ linesWithCommas ((x :: xs).map (memberLine depth)) ++
            (tabs depth ++ '\x7d' :: rest)
        from by simp]
      rw [ih (fun kv hkv => hclean kv (List.mem_cons_of_mem m hkv))
        (fun kv hkv => hIH kv (List.mem_cons_of_mem m hkv)) (by simp)
        fuel ['\n'] rest (wsOnly_cons (by decide) wsOnly_nil)]
      rw [jcons_eq_jappend (mkTok .Next [',']), jappend_jappend,
        jcons_jappend, jcons_jappend, jappend_jappend]
      simp

theorem scan_elems (depth : Nat) :
    ∀ (es : List JsonValue),
      (∀ e ∈ es, ∀ (fuel : Nat) (ws rest : List Char), wsOnly ws →
          (∀ x ∈ rest.head?, isNumericChar x = false) →
          scanF (fuel + (tokensOfV e).length) (ws ++ writeV (depth + 1) e ++ rest) =
            jappend (tokensOfV e) (scanF fuel rest)) →
      es ≠ [] →
      ∀ (fuel : Nat) (ws rest : List Char), wsOnly ws →
        scanF (fuel + ((elemToks es).length + 1))
            (ws ++ linesWithCommas (es.map (fun e => tabs (depth + 1) ++ writeV (depth + 1) e)) ++
              (tabs depth ++ ']' :: rest)) =
          jappend (elemToks es ++ [mkTok .ArrayEnd [']']]) (scanF fuel rest) := by
  intro es
  induction es with
  | nil => intro _ hne; exact absurd rfl hne
  | cons e tail ih =>
    intro hIH _ fuel ws rest hws
    have hIHe := hIH e (by simp)
    cases tail with
    | nil =>
      have htext : ws ++ linesWithCommas ([e].map (fun e => tabs (depth + 1) ++ writeV (depth + 1) e)) ++
            (tabs depth ++ ']' :: rest) =
          (ws ++ tabs (depth + 1)) ++ writeV (depth + 1) e ++
            ('\n' :: (tabs depth ++ ']' :: rest)) := by
        simp [linesWithCommas]
      rw [elemToks_single]
      rw [show fuel + ((tokensOfV e).length + 1) = (fuel + 1) + (tokensOfV e).length
        from by omega]
      rw [htext]
      rw [hIHe (fuel + 1) _ ('\n' :: (tabs depth ++ ']' :: rest))
        (wsOnly_append hws (tabs_ws _)) (headNum_cons (by decide) _)]
      rw [show ('\n' :: (tabs depth ++ ']' :: rest)) = ('\n' :: tabs depth) ++ ']' :: rest
        from by simp]
      rw [scan_tok_arrEnd fuel rest (wsOnly_cons (by decide) (tabs_ws depth))]
      rw [jcons_eq_jappend (mkTok .ArrayEnd [']']), jappend_jappend]
    | cons x xs =>
      have htext : ws ++ linesWithCommas ((e :: x :: xs).map (fun e => tabs (depth + 1) ++ writeV (depth + 1) e)) ++
            (tabs depth ++ ']' :: rest) =
          (ws ++ tabs (depth + 1)) ++ writeV (depth + 1) e ++
            (',' :: '\n' :: (linesWithCommas ((x :: xs).map (fun e => tabs (depth + 1) ++ writeV (depth + 1) e)) ++
              (tabs depth ++ ']' :: rest))) := by
        rw [List.map_cons, List.map_cons, lwc_cons₂,
          ← List.map_cons (fun e => tabs (depth + 1) ++ writeV (depth + 1) e) x xs]
        simp
      rw [elemToks_cons₂]
      simp only [List.length_append, List.length_cons]
      rw [show fuel + ((tokensOfV e).length + ((elemToks (x :: xs)).length + 1) + 1) =
          (((fuel + ((elemToks (x :: xs)).length + 1)) + 1) + (tokensOfV e).length)
        from by omega]
      rw [htext]
      rw [hIHe _ _ _ (wsOnly_append hws (tabs_ws _)) (headNum_cons (by decide) _)]
      rw [show (',' :: '\n' :: (linesWithCommas ((x :: xs).map (fun e => tabs (depth + 1) ++ writeV (depth + 1) e)) ++
            (tabs depth ++ ']' :: rest))) =
          ([] : List Char) ++ ',' :: ('\n' :: (linesWithCommas ((x :: xs).map (fun e => tabs (depth + 1) ++ writeV (depth + 1) e)) ++
            (tabs depth ++ ']' :: rest)))
        from by simp]
      rw [scan_tok_next _ _ wsOnly_nil]
      rw [show ('\n' :: (linesWithCommas ((x :: xs).map (fun e => tabs (depth + 1) ++ writeV (depth + 1) e)) ++
            (tabs depth ++ ']' :: rest))) =
          ['\n'] ++ linesWithCommas ((x :: xs).map (fun e => tabs (depth + 1) ++ writeV (depth + 1) e)) ++
            (tabs depth ++ ']' :: rest)
        from by simp]
      rw [ih (fun e he => hIH e (List.mem_cons_of_mem _ he)) (by simp)
        fuel ['\n'] rest (wsOnly_cons (by decide) wsOnly_nil)]
      rw [jcons_eq_jappend (mkTok .Next [','])]
      rw [jappend_jappend]
      rw [jappend_jappend]
      congr 1
      simp

theorem scan_writeV : ∀ (n : Nat) (v : JsonValue), sizeOf v ≤ n → WfRT v →
    ∀ (depth fuel : Nat) (ws rest : List Char), wsOnly ws →
      (∀ x ∈ rest.head?, isNumericChar x = false) →
      scanF (fuel + (tokensOfV v).length) (ws ++ writeV depth v ++ rest) =
        jappend (tokensOfV v) (scanF fuel rest) := by
  intro n
  induction n with
  | zero =>
    intro v hsz
    exfalso
    cases v
    simp at hsz
  | succ n ihn =>
    intro v hsz hv depth fuel ws rest hws hrest
    cases hv with
    | wint d hden habs =>
      simp only [tokensOfV, writeV, List.length_cons, List.length_nil]
      obtain ⟨c0, nt, hshape, hhead, hnum⟩ := intText_shape (truncQ d)
      rw [hshape]
      rw [scan_tok_number fuel hws hhead (hshape ▸ hnum) hrest]
      rw [jcons_eq_jappend]
    | wdouble d hden hfin =>
      simp only [tokensOfV, writeV, List.length_cons, List.length_nil]
      obtain ⟨c0, nt, hshape, hhead, hnum⟩ := doubleText_shape d hden hfin
      rw [hshape]
      rw [scan_tok_number fuel hws hhead (hshape ▸ hnum) hrest]
      rw [jcons_eq_jappend]
    | wbool b =>
      simp only [tokensOfV, writeV, List.length_cons, List.length_nil]
      cases b with
      | true =>
        rw [if_pos (show true = true from rfl)]
        rw [scan_tok_true fuel rest hws, jcons_eq_jappend]
      | false =>
        rw [if_neg (show ¬(false = true) from by decide)]
        rw [scan_tok_false fuel rest hws, jcons_eq_jappend]
    | wstring s hcl =>
      simp only [tokensOfV, writeV, List.length_cons, List.length_nil]
      rw [show ws ++ writeQuoted s ++ rest = ws ++ '"' :: (s ++ '"' :: rest) from by
        simp [writeQuoted, escape_clean hcl]]
      rw [scan_tok_string fuel s rest hws hcl, jcons_eq_jappend]
    | wempty =>
      simp only [tokensOfV, writeV, List.length_cons, List.length_nil]
      rw [show ws ++ "null".toList ++ rest = ws ++ "null".toList ++ rest from rfl]
      rw [scan_tok_null fuel rest hws, jcons_eq_jappend]
    | wobject o hne hsort hclean hwf =>
      have hoe : o.isEmpty = false := by
        cases o with
        | nil => exact absurd rfl hne
        | cons a b => rfl
      rw [tokensOfV_object, writeV_object, hoe]
      simp only [List.length_cons, List.length_append, List.length_nil, if_neg Bool.false_ne_true]
      rw [show fuel + ((memberToks o).length + 1 + 1) = (fuel + ((memberToks o).length + 1)) + 1
        from by omega]
      rw [show ws ++ ('\x7b' :: (['\n'] ++
            linesWithCommas (o.map (memberLine depth)) ++ tabs depth ++ ['\x7d'])) ++ rest =
          ws ++ '\x7b' :: (['\n'] ++ linesWithCommas (o.map (memberLine depth)) ++
            (tabs depth ++ '\x7d' :: rest)) from by simp]
      rw [scan_tok_objStart _ _ hws]
      have hmem : ∀ kv ∈ o, ∀ (fuel : Nat) (ws rest : List Char), wsOnly ws →
          (∀ x ∈ rest.head?, isNumericChar x = false) →
          scanF (fuel + (tokensOfV kv.2).length) (ws ++ writeV (depth + 1) kv.2 ++ rest) =
            jappend (tokensOfV kv.2) (scanF fuel rest) := by
        intro kv hkv
        have hsz2 : sizeOf kv.2 ≤ n := by
          have h1 := List.sizeOf_lt_of_mem hkv
          cases kv with
          | mk k vv => simp at h1 hsz ⊢ ; omega
        exact ihn kv.2 hsz2 (hwf kv hkv) (depth + 1)
      rw [scan_members depth o hclean hmem hne fuel ['\n'] rest
        (wsOnly_cons (by decide) wsOnly_nil)]
      rw [jcons_jappend]
      simp
    | warray a hne hhead hwf =>
      have hae : a.isEmpty = false := by
        cases a with
        | nil => exact absurd rfl hne
        | cons x b => rfl
      rw [tokensOfV_array, writeV_array, hae]
      simp only [List.length_cons, List.length_append, List.length_nil, if_neg Bool.false_ne_true]
      rw [show fuel + ((elemToks a).length + 1 + 1) = (fuel + ((elemToks a).length + 1)) + 1
        from by omega]
      rw [show ws ++ ('[' :: (['\n'] ++
            linesWithCommas (a.map (fun e => tabs (depth + 1) ++ writeV (depth + 1) e)) ++
            tabs depth ++ [']'])) ++ rest =
          ws ++ '[' :: (['\n'] ++
            linesWithCommas (a.map (fun e => tabs (depth + 1) ++ writeV (depth + 1) e)) ++
            (tabs depth ++ ']' :: rest)) from by simp]
      rw [scan_tok_arrStart _ _ hws]
      have helem : ∀ e ∈ a, ∀ (fuel : Nat) (ws rest : List Char), wsOnly ws →
          (∀ x ∈ rest.head?, isNumericChar x = false) →
          scanF (fuel + (tokensOfV e).length) (ws ++ writeV (depth + 1) e ++ rest) =
            jappend (tokensOfV e) (scanF fuel rest) := by
        intro e he
        have hsz2 : sizeOf e ≤ n := by
          have h1 := List.sizeOf_lt_of_mem he
          simp at hsz ⊢ ; omega
        exact ihn e hsz2 (hwf e he) (depth + 1)
      rw [scan_elems depth a helem hne fuel ['\n'] rest
        (wsOnly_cons (by decide) wsOnly_nil)]
      rw [jcons_jappend]
      simp

theorem memberToks_le (depth : Nat) :
    ∀ ms : List (List Char × JsonValue),
      (∀ kv ∈ ms, (tokensOfV kv.2).length ≤ (writeV (depth + 1) kv.2).length) →
      (memberToks ms).length ≤ (linesWithCommas (ms.map (memberLine depth))).length := by
  intro ms
  induction ms with
  | nil => intro _; simp [memberToks, joinToks, linesWithCommas]
  | cons m tail ih =>
    intro h
    have hm := h m (by simp)
    cases tail with
    | nil =>
      simp only [memberToks_single, List.map_cons, List.map_nil, linesWithCommas,
        memberLine, writeQuoted]
      simp
      omega
    | cons x xs =>
      have ht := ih (fun kv hkv => h kv (List.mem_cons_of_mem m hkv))
      rw [memberToks_cons₂, List.map_cons, List.map_cons, lwc_cons₂,
        ← List.map_cons (memberLine depth) x xs]
      simp only [List.length_append, List.length_cons, memberLine, writeQuoted]
      simp
      rw [List.map_cons] at ht
      omega

theorem elemToks_le (depth : Nat) :
    ∀ es : List JsonValue,
      (∀ e ∈ es, (tokensOfV e).length ≤ (writeV (depth + 1) e).length) →
      (elemToks es).length ≤
        (linesWithCommas (es.map (fun e => tabs (depth + 1) ++ writeV (depth + 1) e))).length := by
  intro es
  induction es with
  | nil => intro _; simp [elemToks, joinToks, linesWithCommas]
  | cons e tail ih =>
    intro h
    have hm := h e (by simp)
    cases tail with
    | nil =>
      simp only [elemToks_single, List.map_cons, List.map_nil, linesWithCommas]
      simp
      omega
    | cons x xs =>
      have ht := ih (fun q hq => h q (List.mem_cons_of_mem e hq))
      rw [elemToks_cons₂, List.map_cons, List.map_cons, lwc_cons₂,
        ← List.map_cons (fun e => tabs (depth + 1) ++ writeV (depth + 1) e) x xs]
      simp only [List.length_append, List.length_cons]
      simp
      rw [List.map_cons] at ht
      omega

theorem nt_le_chars : ∀ (n : Nat) (v : JsonValue), sizeOf v ≤ n → WfRT v →
    ∀ depth, (tokensOfV v).length ≤ (writeV depth v).length := by
  intro n
  induction n with
  | zero =>
    intro v hsz
    exfalso
    cases v
    simp at hsz
  | succ n ihn =>
    intro v hsz hv depth
    cases hv with
    | wint d hden habs =>
      obtain ⟨c0, nt, hshape, _, _⟩ := intText_shape (truncQ d)
      simp only [tokensOfV, writeV, hshape]
      simp
    | wdouble d hden hfin =>
      obtain ⟨c0, nt, hshape, _, _⟩ := doubleText_shape d hden hfin
      simp only [tokensOfV, writeV, hshape]
      simp
    | wbool b =>
      simp only [tokensOfV, writeV]
      cases b <;> simp
    | wstring s hcl =>
      simp only [tokensOfV, writeV, writeQuoted]
      simp
    | wempty => simp only [tokensOfV, writeV]; simp
    | wobject o hne hsort hclean hwf =>
      have hoe : o.isEmpty = false := by
        cases o with
        | nil => exact absurd rfl hne
        | cons a b => rfl
      rw [tokensOfV_object, writeV_object, hoe]
      have hinner := memberToks_le depth o (fun kv hkv => by
        have hsz2 : sizeOf kv.2 ≤ n := by
          have h1 := List.sizeOf_lt_of_mem hkv
          cases kv with
          | mk k vv => simp at h1 hsz ⊢ ; omega
        exact ihn kv.2 hsz2 (hwf kv hkv) (depth + 1))
      simp only [if_neg Bool.false_ne_true, List.length_cons, List.length_append]
      simp
      omega
    | warray a hne hhead hwf =>
      have hae : a.isEmpty = false := by
        cases a with
        | nil => exact absurd rfl hne
        | cons x b => rfl
      rw [tokensOfV_array, writeV_array, hae]
      have hinner := elemToks_le depth a (fun e he => by
        have hsz2 : sizeOf e ≤ n := by
          have h1 := List.sizeOf_lt_of_mem he
          simp at hsz ⊢ ; omega
        exact ihn e hsz2 (hwf e he) (depth + 1))
      simp only [if_neg Bool.false_ne_true, List.length_cons, List.length_append]
      simp
      omega

theorem scan_writeText (v : JsonValue) (hv : WfRT v) :
    scan (writeText v) = .ok (tokensOfV v) := by
  have hle := nt_le_chars (sizeOf v) v le_rfl hv 0
  rw [scan, writeText]
  have hfe : (writeV 0 v).length + 1 =
      ((writeV 0 v).length + 1 - (tokensOfV v).length) + (tokensOfV v).length := by omega
  rw [hfe]
  have hmain := scan_writeV (sizeOf v) v le_rfl hv 0
    ((writeV 0 v).length + 1 - (tokensOfV v).length) [] [] wsOnly_nil (by simp)
  rw [show ([] : List Char) ++ writeV 0 v ++ [] = writeV 0 v from by simp] at hmain
  rw [hmain]
  obtain ⟨g, hg⟩ : ∃ g, (writeV 0 v).length + 1 - (tokensOfV v).length = g + 1 := by
    refine ⟨(writeV 0 v).length - (tokensOfV v).length, by omega⟩
  rw [hg, scanF.eq_2]
  simp [jappend]

theorem ltChars_irrefl : ∀ a : List Char, ltChars a a = false := by
  intro a
  induction a with
  | nil => rfl
  | cons c t ih => simp [ltChars, lt_irrefl, ih]

theorem ltChars_asymm : ∀ a b : List Char, ltChars a b = true → ltChars b a = false := by
  intro a
  induction a with
  | nil =>
    intro b h
    cases b with
    | nil => rfl
    | cons c t => rfl
  | cons c t ih =>
    intro b h
    cases b with
    | nil => simp [ltChars] at h
    | cons d s =>
      rw [ltChars] at h ⊢
      by_cases hcd : c < d
      · rw [if_neg (asymm hcd), if_pos hcd]
      · rw [if_neg hcd] at h
        by_cases hdc : d < c
        · rw [if_pos hdc] at h; exact absurd h (by decide)
        · rw [if_neg hdc] at h
          rw [if_neg hdc, if_neg hcd]
          exact ih s h

theorem ltChars_trans : ∀ a b c : List Char,
    ltChars a b = true → ltChars b c = true → ltChars a c = true := by
  intro a
  induction a with
  | nil =>
    intro b c hab hbc
    cases b with
    | nil => exact hbc
    | cons d s =>
      cases c with
      | nil => simp [ltChars] at hbc
      | cons e u => rfl
  | cons x t ih =>
    intro b c hab hbc
    cases b with
    | nil => simp [ltChars] at hab
    | cons d s =>
      cases c with
      | nil => simp [ltChars] at hbc
      | cons e u =>
        rw [ltChars] at hab hbc ⊢
        by_cases hxd : x < d
        · by_cases hde : d < e
          · rw [if_pos (lt_trans hxd hde)]
          · rw [if_neg hde] at hbc
            by_cases hed : e < d
            · rw [if_pos hed] at hbc; exact absurd hbc (by decide)
            · have hde2 : d = e := le_antisymm (not_lt.mp hed) (not_lt.mp hde)
              rw [if_pos (hde2 ▸ hxd)]
        · rw [if_neg hxd] at hab
          by_cases hdx : d < x
          · rw [if_pos hdx] at hab; exact absurd hab (by decide)
          · rw [if_neg hdx] at hab
            have hxd2 : x = d := le_antisymm (not_lt.mp hdx) (not_lt.mp hxd)
            subst hxd2
            by_cases hxe : x < e
            · rw [if_pos hxe]
            · rw [if_neg hxe] at hbc ⊢
              by_cases hex : e < x
              · rw [if_pos hex] at hbc; exact absurd hbc (by decide)
              · rw [if_neg hex] at hbc ⊢
                exact ih s u hab hbc

theorem ltChars_ne {a b : List Char} (h : ltChars a b = true) : a ≠ b := by
  intro he
  subst he
  rw [ltChars_irrefl a] at h
  exact absurd h (by decide)

theorem objFind_none : ∀ (obj : List (List Char × JsonValue)) (key : List Char),
    (∀ kv ∈ obj, kv.1 ≠ key) → objFind key obj = none := by
  intro obj key
  induction obj with
  | nil => intro _; rfl
  | cons p t ih =>
    intro h
    cases p with
    | mk k v =>
      rw [objFind]
      rw [if_neg (h (k, v) (by simp))]
      exact ih (fun kv hkv => h kv (List.mem_cons_of_mem _ hkv))

theorem objInsert_append : ∀ (obj : List (List Char × JsonValue))
    (key : List Char) (val : JsonValue),
    (∀ kv ∈ obj, ltChars kv.1 key = true) →
    objInsert key val obj = obj ++ [(key, val)] := by
  intro obj key val
  induction obj with
  | nil => intro _; rfl
  | cons p t ih =>
    intro h
    cases p with
    | mk k v =>
      have hk := h (k, v) (by simp)
      rw [objInsert]
      rw [if_neg (by rw [ltChars_asymm k key hk]; exact fun hc => absurd hc (by decide))]
      rw [if_neg (Ne.symm (ltChars_ne hk))]
      rw [ih (fun kv hkv => h kv (List.mem_cons_of_mem _ hkv))]
      rfl

theorem sortedKeys_tail : ∀ (m : List Char × JsonValue) (ms : List (List Char × JsonValue)),
    sortedKeys (m :: ms) = true → sortedKeys ms = true := by
  intro m ms h
  cases m with
  | mk k v =>
    cases ms with
    | nil => rfl
    | cons p t =>
      cases p with
      | mk k2 v2 =>
        rw [sortedKeys, Bool.and_eq_true] at h
        exact h.2

theorem sortedKeys_head_lt : ∀ (m : List Char × JsonValue)
    (ms : List (List Char × JsonValue)), sortedKeys (m :: ms) = true →
    ∀ kv ∈ ms, ltChars m.1 kv.1 = true := by
  intro m ms
  induction ms generalizing m with
  | nil => intro _ kv hkv; simp at hkv
  | cons p t ih =>
    intro h kv hkv
    have h1 : ltChars m.1 p.1 = true := by
      cases m with
      | mk k v =>
        cases p with
        | mk k2 v2 =>
          rw [sortedKeys, Bool.and_eq_true] at h
          exact h.1
    rcases List.mem_cons.mp hkv with he | hm
    · subst he; exact h1
    · exact ltChars_trans m.1 p.1 kv.1 h1
        (ih p (sortedKeys_tail m (p :: t) h) kv hm)

theorem ratNum_den1 {q : ℚ} (h : q.den = 1) : (q.num : ℚ) = q := (Rat.den_eq_one_iff q).mp h

theorem truncQ_den1 {q : ℚ} (h : q.den = 1) : truncQ q = q.num := by
  rw [truncQ, h]
  exact Int.tdiv_one q.num

theorem tokensOfV_cons (v : JsonValue) (hv : WfRT v) :
    ∃ t ts, tokensOfV v = t :: ts ∧ (v.getType ≠ .VArray → t.ttype ≠ .ArrayStart) := by
  cases hv with
  | wint d hden habs =>
    exact ⟨mkTok .TNumber (intText (truncQ d)), [], by simp only [tokensOfV],
      fun _ h => by simp [mkTok] at h⟩
  | wdouble d hden hfin =>
    exact ⟨mkTok .TNumber (doubleText d), [], by simp only [tokensOfV],
      fun _ h => by simp [mkTok] at h⟩
  | wbool b =>
    exact ⟨mkTok .TBoolean (if b then "true".toList else "false".toList), [],
      by simp only [tokensOfV], fun _ h => by simp [mkTok] at h⟩
  | wstring s hcl =>
    exact ⟨mkTok .TString s, [], by simp only [tokensOfV], fun _ h => by simp [mkTok] at h⟩
  | wempty =>
    exact ⟨mkTok .TEmpty [], [], by simp only [tokensOfV], fun _ h => by simp [mkTok] at h⟩
  | wobject o hne hsort hclean hwf =>
    exact ⟨mkTok .ObjectStart ['\x7b'], memberToks o ++ [mkTok .ObjectEnd ['\x7d']],
      by rw [tokensOfV_object, List.cons_append], fun _ h => by simp [mkTok] at h⟩
  | warray a hne hhead hwf =>
    exact ⟨mkTok .ArrayStart ['['], elemToks a ++ [mkTok .ArrayEnd [']']],
      by rw [tokensOfV_array, List.cons_append], fun hc => absurd rfl hc⟩

theorem parseNumberVal_int {d : ℚ} (hden : d.den = 1) :
    parseNumberVal (intText (truncQ d)) = .mk d 0 0 false [] [] [] .VInt := by
  have h1 : parseDec (intText (truncQ d)) = ((truncQ d : Int) : ℚ) := parseDec_intText (truncQ d)
  rw [truncQ_den1 hden, ratNum_den1 hden] at h1
  simp only [parseNumberVal]
  rw [truncQ_den1 hden, h1, if_pos hden]
  rfl

theorem parseNumberVal_double {d : ℚ} (hden : d.den ≠ 1) (hfin : hasFinDec d = true) :
    parseNumberVal (doubleText d) = .mk d 0 0 false [] [] [] .VDouble := by
  have h1 : parseDec (doubleText d) = d := parseDec_doubleText d hden hfin
  simp only [parseNumberVal, h1]
  rw [if_neg hden]
  rfl

theorem parse_obj_loop :
    ∀ (ms obj : List (List Char × JsonValue)),
      (∀ kv ∈ ms, ∀ (fuel : Nat) (rest : List JsonToken),
          3 * (tokensOfV kv.2).length ≤ fuel →
          parseValueF fuel (tokensOfV kv.2 ++ rest) = .ok (kv.2, rest)) →
      ms ≠ [] →
      sortedKeys ms = true →
      (∀ kv ∈ ms, ∀ pv ∈ obj, ltChars pv.1 kv.1 = true) →
      ∀ (fuel : Nat) (rest : List JsonToken),
        3 * (memberToks ms).length ≤ fuel →
        parseObjectLoopF fuel (memberToks ms ++ mkTok .ObjectEnd ['\x7d'] :: rest) obj =
          .ok (obj ++ ms, rest) := by
  intro ms
  induction ms with
  | nil => intro _ _ hne; exact absurd rfl hne
  | cons m tail ih =>
    intro obj hIH _ hsort hlt fuel rest hfuel
    have hIHm := hIH m (by simp)
    have hfind : objFind m.1 obj = none :=
      objFind_none obj m.1 (fun kv hkv => ltChars_ne (hlt m (by simp) kv hkv))
    have hins : objInsert m.1 m.2 obj = obj ++ [(m.1, m.2)] :=
      objInsert_append obj m.1 m.2 (fun kv hkv => hlt m (by simp) kv hkv)
    cases tail with
    | nil =>
      have hlen : (memberToks [m]).length = (tokensOfV m.2).length + 2 := by
        rw [memberToks_single]; simp
      obtain ⟨f, rfl⟩ : ∃ f, fuel = f + 1 := ⟨fuel - 1, by omega⟩
      rw [show memberToks [m] ++ mkTok .ObjectEnd ['\x7d'] :: rest =
          mkTok .TString m.1 :: mkTok .Assign [':'] ::
            (tokensOfV m.2 ++ mkTok .ObjectEnd ['\x7d'] :: rest) from by
        rw [memberToks_single]; simp]
      rw [parseObjectLoopF]
      rw [hIHm f (mkTok .ObjectEnd ['\x7d'] :: rest) (by omega)]
      simp only [mkTok, hfind, hins, objFinish]
      simp
    | cons x xs =>
      have hlen : (memberToks (m :: x :: xs)).length =
          (tokensOfV m.2).length + 3 + (memberToks (x :: xs)).length := by
        rw [memberToks_cons₂]; simp; omega
      obtain ⟨f, rfl⟩ : ∃ f, fuel = f + 1 := ⟨fuel - 1, by omega⟩
      rw [show memberToks (m :: x :: xs) ++ mkTok .ObjectEnd ['\x7d'] :: rest =
          mkTok .TString m.1 :: mkTok .Assign [':'] ::
            (tokensOfV m.2 ++ mkTok .Next [','] ::
              (memberToks (x :: xs) ++ mkTok .ObjectEnd ['\x7d'] :: rest)) from by
        rw [memberToks_cons₂]; simp]
      rw [parseObjectLoopF]
      rw [hIHm f (mkTok .Next [','] ::
        (memberToks (x :: xs) ++ mkTok .ObjectEnd ['\x7d'] :: rest)) (by omega)]
      obtain ⟨t0, ts0, hts⟩ : ∃ t0 ts0,
          memberToks (x :: xs) ++ mkTok .ObjectEnd ['\x7d'] :: rest = t0 :: ts0 := by
        cases xs <;> exact ⟨_, _, rfl⟩
      rw [hts]
      simp only [mkTok, hfind, hins]
      simp
      rw [← hts]
      have hih := ih (obj ++ [(m.1, m.2)])
        (fun kv hkv => hIH kv (List.mem_cons_of_mem m hkv))
        (by simp)
        (sortedKeys_tail m (x :: xs) hsort)
        (fun kv hkv pv hpv => by
          rcases List.mem_append.mp hpv with hp | hp
          · exact ltChars_trans pv.1 m.1 kv.1 (hlt m (by simp) pv hp)
              (sortedKeys_head_lt m (x :: xs) hsort kv hkv)
          · simp at hp
            rw [show pv.1 = m.1 from by rw [hp]]
            exact sortedKeys_head_lt m (x :: xs) hsort kv hkv)
        f rest (by omega)
      rw [hih]
      simp

theorem parse_arr_loop :
    ∀ (es arr : List JsonValue),
      (∀ e ∈ es, ∀ (fuel : Nat) (rest : List JsonToken),
          3 * (tokensOfV e).length ≤ fuel →
          parseValueF fuel (tokensOfV e ++ rest) = .ok (e, rest)) →
      (∀ e ∈ es, ∃ t ts, tokensOfV e = t :: ts) →
      es ≠ [] →
      ∀ (fuel : Nat) (rest : List JsonToken),
        3 * (elemToks es).length + 1 ≤ fuel →
        parseArrayLoopF fuel (elemToks es ++ mkTok .ArrayEnd [']'] :: rest) arr =
          .ok (arr ++ es, rest) := by
  intro es
  induction es with
  | nil => intro _ _ _ hne; exact absurd rfl hne
  | cons e tail ih =>
    intro arr hIH hcons _ fuel rest hfuel
    have hIHe := hIH e (by simp)
    cases tail with
    | nil =>
      obtain ⟨f, rfl⟩ : ∃ f, fuel = f + 1 := ⟨fuel - 1, by omega⟩
      rw [show elemToks [e] ++ mkTok .ArrayEnd [']'] :: rest =
          tokensOfV e ++ mkTok .ArrayEnd [']'] :: rest from by rw [elemToks_single]]
      rw [parseArrayLoopF]
      rw [hIHe f (mkTok .ArrayEnd [']'] :: rest) (by
        rw [elemToks_single] at hfuel; omega)]
      simp only [mkTok, arrFinish]
      simp
    | cons x xs =>
      have hlen : (elemToks (e :: x :: xs)).length =
          (tokensOfV e).length + 1 + (elemToks (x :: xs)).length := by
        rw [elemToks_cons₂]; simp; omega
      obtain ⟨f, rfl⟩ : ∃ f, fuel = f + 1 := ⟨fuel - 1, by omega⟩
      rw [show elemToks (e :: x :: xs) ++ mkTok .ArrayEnd [']'] :: rest =
          tokensOfV e ++ mkTok .Next [','] ::
            (elemToks (x :: xs) ++ mkTok .ArrayEnd [']'] :: rest) from by
        rw [elemToks_cons₂]; simp]
      rw [parseArrayLoopF]
      rw [hIHe f (mkTok .Next [','] ::
        (elemToks (x :: xs) ++ mkTok .ArrayEnd [']'] :: rest)) (by omega)]
      obtain ⟨t0, ts0, hts⟩ : ∃ t0 ts0,
          elemToks (x :: xs) ++ mkTok .ArrayEnd [']'] :: rest = t0 :: ts0 := by
        obtain ⟨tx, tsx, hx⟩ := hcons x (by simp)
        cases xs with
        | nil => rw [elemToks_single, hx]; exact ⟨_, _, rfl⟩
        | cons y ys =>
          rw [elemToks_cons₂, hx]
          refine ⟨tx, tsx ++ mkTok .Next [','] ::
            (elemToks (y :: ys) ++ mkTok .ArrayEnd [']'] :: rest), ?_⟩
          simp
      rw [hts]
      simp only [mkTok]
      simp
      rw [← hts]
      rw [ih (arr ++ [e]) (fun q hq => hIH q (List.mem_cons_of_mem e hq))
        (fun q hq => hcons q (List.mem_cons_of_mem e hq)) (by simp)
        f rest (by omega)]
      simp

theorem parse_toks : ∀ (n : Nat) (v : JsonValue), sizeOf v ≤ n → WfRT v →
    ∀ (fuel : Nat) (rest : List JsonToken), 3 * (tokensOfV v).length ≤ fuel →
      parseValueF fuel (tokensOfV v ++ rest) = .ok (v, rest) := by
  intro n
  induction n with
  | zero =>
    intro v hsz
    exfalso
    cases v
    simp at hsz
  | succ n ihn =>
    intro v hsz hv fuel rest hfuel
    cases hv with
    | wint d hden habs =>
      simp only [tokensOfV, List.length_cons, List.length_nil] at hfuel ⊢
      obtain ⟨f, rfl⟩ : ∃ f, fuel = f + 1 := ⟨fuel - 1, by omega⟩
      rw [List.cons_append, List.nil_append, parseValueF]
      simp only [mkTok]
      rw [parseNumberVal_int hden]
    | wdouble d hden hfin =>
      simp only [tokensOfV, List.length_cons, List.length_nil] at hfuel ⊢
      obtain ⟨f, rfl⟩ : ∃ f, fuel = f + 1 := ⟨fuel - 1, by omega⟩
      rw [List.cons_append, List.nil_append, parseValueF]
      simp only [mkTok]
      rw [parseNumberVal_double hden hfin]
    | wbool b =>
      simp only [tokensOfV, List.length_cons, List.length_nil] at hfuel ⊢
      obtain ⟨f, rfl⟩ : ∃ f, fuel = f + 1 := ⟨fuel - 1, by omega⟩
      rw [List.cons_append, List.nil_append, parseValueF]
      simp only [mkTok]
      cases b with
      | true => simp; rfl
      | false => simp; rfl
    | wstring s hcl =>
      simp only [tokensOfV, List.length_cons, List.length_nil] at hfuel ⊢
      obtain ⟨f, rfl⟩ : ∃ f, fuel = f + 1 := ⟨fuel - 1, by omega⟩
      rw [List.cons_append, List.nil_append, parseValueF]
      simp only [mkTok]
      rfl
    | wempty =>
      simp only [tokensOfV, List.length_cons, List.length_nil] at hfuel ⊢
      obtain ⟨f, rfl⟩ : ∃ f, fuel = f + 1 := ⟨fuel - 1, by omega⟩
      rw [List.cons_append, List.nil_append, parseValueF]
      simp only [mkTok]
      rfl
    | wobject o hne hsort hclean hwf =>
      rw [tokensOfV_object] at hfuel ⊢
      simp only [List.length_cons, List.length_append, List.length_nil] at hfuel
      obtain ⟨f, rfl⟩ : ∃ f, fuel = f + 1 := ⟨fuel - 1, by omega⟩
      obtain ⟨f2, rfl⟩ : ∃ f2, f = f2 + 1 := ⟨f - 1, by omega⟩
      rw [List.append_assoc, List.cons_append, List.cons_append, List.nil_append]
      rw [parseValueF]
      simp only [mkTok]
      have hmem : ∀ kv ∈ o, ∀ (fuel : Nat) (rest : List JsonToken),
          3 * (tokensOfV kv.2).length ≤ fuel →
          parseValueF fuel (tokensOfV kv.2 ++ rest) = .ok (kv.2, rest) := by
        intro kv hkv
        have hsz2 : sizeOf kv.2 ≤ n := by
          have h1 := List.sizeOf_lt_of_mem hkv
          cases kv with
          | mk k vv => simp at h1 hsz ⊢ ; omega
        exact ihn kv.2 hsz2 (hwf kv hkv)
      have hloop := parse_obj_loop o [] hmem hne hsort (fun kv _ pv hpv => by simp at hpv)
        f2 rest (by omega)
      rw [List.nil_append] at hloop
      obtain ⟨m, tail, rfl⟩ : ∃ m tail, o = m :: tail := by
        cases o with
        | nil => exact absurd rfl hne
        | cons m tail => exact ⟨m, tail, rfl⟩
      simp only [mkTok] at hloop
      obtain ⟨t0, ts0, hts⟩ : ∃ t0 ts0,
          memberToks (m :: tail) ++ (⟨.ObjectEnd, ['\x7d']⟩ : JsonToken) :: rest = t0 :: ts0 := by
        cases tail <;> exact ⟨_, _, rfl⟩
      have ht0 : t0.ttype = .TString := by
        cases tail with
        | nil => cases hts; rfl
        | cons y ys => cases hts; rfl
      rw [parseJsonObjectF.eq_def]
      simp only []
      rw [if_neg (show ¬(JsonTokenType.ObjectStart ≠ JsonTokenType.ObjectStart) from by simp)]
      rw [hts]
      simp only []
      rw [if_pos (show t0.ttype ≠ JsonTokenType.ObjectStart from by rw [ht0]; simp)]
      rw [← hts, hloop]
      rfl
    | warray a hne hhead hwf =>
      rw [tokensOfV_array] at hfuel ⊢
      simp only [List.length_cons, List.length_append, List.length_nil] at hfuel
      obtain ⟨f, rfl⟩ : ∃ f, fuel = f + 1 := ⟨fuel - 1, by omega⟩
      obtain ⟨f2, rfl⟩ : ∃ f2, f = f2 + 1 := ⟨f - 1, by omega⟩
      rw [List.append_assoc, List.cons_append, List.cons_append, List.nil_append]
      rw [parseValueF]
      simp only [mkTok]
      have helem : ∀ e ∈ a, ∀ (fuel : Nat) (rest : List JsonToken),
          3 * (tokensOfV e).length ≤ fuel →
          parseValueF fuel (tokensOfV e ++ rest) = .ok (e, rest) := by
        intro e he
        have hsz2 : sizeOf e ≤ n := by
          have h1 := List.sizeOf_lt_of_mem he
          simp at hsz ⊢ ; omega
        exact ihn e hsz2 (hwf e he)
      have hcons : ∀ e ∈ a, ∃ t ts, tokensOfV e = t :: ts := by
        intro e he
        obtain ⟨t, ts, h1, _⟩ := tokensOfV_cons e (hwf e he)
        exact ⟨t, ts, h1⟩
      have hloop := parse_arr_loop a [] helem hcons hne f2 rest (by omega)
      rw [List.nil_append] at hloop
      obtain ⟨e1, tail, rfl⟩ : ∃ e1 tail, a = e1 :: tail := by
        cases a with
        | nil => exact absurd rfl hne
        | cons e1 tail => exact ⟨e1, tail, rfl⟩
      obtain ⟨t1, ts1, he1, hne1⟩ := tokensOfV_cons e1 (hwf e1 (by simp))
      have hne1a : t1.ttype ≠ .ArrayStart := hne1 (hhead e1 (by simp))
      simp only [mkTok] at hloop
      obtain ⟨t0, ts0, hts, ht0⟩ : ∃ t0 ts0,
          elemToks (e1 :: tail) ++ (⟨.ArrayEnd, [']']⟩ : JsonToken) :: rest = t0 :: ts0 ∧
            t0.ttype ≠ .ArrayStart := by
        cases tail with
        | nil =>
          rw [elemToks_single, he1]
          exact ⟨t1, ts1 ++ [(⟨.ArrayEnd, [']']⟩ : JsonToken)] ++ rest, by simp, hne1a⟩
        | cons y ys =>
          rw [elemToks_cons₂, he1]
          exact ⟨t1, ts1 ++ mkTok .Next [','] ::
            (elemToks (y :: ys) ++ (⟨.ArrayEnd, [']']⟩ : JsonToken) :: rest), by simp, hne1a⟩
      rw [parseJsonArrayF.eq_def]
      simp only []
      rw [if_neg (show ¬(JsonTokenType.ArrayStart ≠ JsonTokenType.ArrayStart) from by simp)]
      rw [hts]
      simp only []
      rw [if_pos ht0]
      rw [← hts, hloop]
      rfl

theorem readJson_writeText (v : JsonValue) (hv : WfRT v) :
    readJson (writeText v) = .ok v := by
  rw [readJson]
  rw [scan_writeText v hv]
  have h := parse_toks (sizeOf v) v le_rfl hv (3 * (tokensOfV v).length + 3) [] (by omega)
  rw [List.append_nil] at h
  simp only []
  rw [h]

theorem wfSample_wf : WfRT wfSample := by
  show WfRT (JsonValue.mk 0 0 0 false []
    [(['a'], JsonValue.mk (mkRat 7 2) 0 0 false [] [] [] .VDouble),
     (['b'], JsonValue.mk 0 0 0 false [] []
        [JsonValue.mk 3 0 0 false [] [] [] .VInt,
         JsonValue.mk 0 0 0 false ['x'] [] [] .VString,
         JsonValue.mk 0 0 0 false [] [] [] .VEmpty] .VArray)]
    [] .VObject)
  refine WfRT.wobject _ (by simp) (by decide) (by decide) ?_
  intro kv hkv
  rcases List.mem_cons.mp hkv with h | h
  · subst h
    exact WfRT.wdouble (mkRat 7 2) (by decide) (by decide)
  · rcases List.mem_cons.mp h with h2 | h2
    · subst h2
      show WfRT (JsonValue.mk 0 0 0 false [] []
        [JsonValue.mk 3 0 0 false [] [] [] .VInt,
         JsonValue.mk 0 0 0 false ['x'] [] [] .VString,
         JsonValue.mk 0 0 0 false [] [] [] .VEmpty] .VArray)
      refine WfRT.warray _ (by simp) (by decide) ?_
      intro e he
      rcases List.mem_cons.mp he with h3 | h3
      · subst h3
        exact WfRT.wint 3 (by decide) (by decide)
      · rcases List.mem_cons.mp h3 with h4 | h4
        · subst h4
          exact WfRT.wstring ['x'] (by decide)
        · rcases List.mem_cons.mp h4 with h5 | h5
          · subst h5
            exact WfRT.wempty
          · simp at h5
    · simp at h2

/-- C2 counterexample: the claim promises that the round trip preserves the
tag of every Double leaf (only Int64/Uint64 are said to collapse).  The Double
leaf holding the integral value 3 is serialized as `3` (the exact decimal text
of the stored value), and reading that text back yields tag Int, not Double:
the tag of an integral-valued Double leaf is not preserved. -/
theorem roundtrip_double_tag_cex :
    (jsonValueOfDouble 3).getType = .VDouble ∧
    cleanStr (jsonValueOfDouble 3).getString = true ∧
    resTag (readJson (writeText (jsonValueOfDouble 3))) = some .VInt := by
  refine ⟨rfl, rfl, ?_⟩
  have hw : writeText (jsonValueOfDouble 3) = ['3'] := by
    rw [writeText, show jsonValueOfDouble 3 = JsonValue.mk 3 0 0 false [] [] [] .VDouble
      from rfl, writeV]
    decide
  rw [hw]
  decide

/-- C2 (amended): for every tree in the round-trip universe `WfRT` — leaves
Int (integral in-range payload), Double (non-integral payload with finite
decimal text), String/keys clean, Boolean, Empty, containers nonempty, object
keys strictly sorted, and no array whose first element is again an array —
`read` after `write` succeeds and returns exactly the original tree, tags and
payloads included. -/
theorem roundtrip_amended (v : JsonValue) (hv : WfRT v) :
    readJson (writeText v) = .ok v := readJson_writeText v hv

theorem roundtrip_amended_witness :
    WfRT wfSample ∧ readJson (writeText wfSample) = .ok wfSample :=
  ⟨wfSample_wf, roundtrip_amended wfSample wfSample_wf⟩
